import Mathlib

/-!
# gopkg: password hashing and opaque tokens

A shallow embedding of `crypto/password/argon2.go`, `crypto/password/bcrypt.go`
and `crypto/token/opaque.go`, together with models of the Go standard-library
routines those files call (`strings.Split`, `fmt.Sscanf`, `fmt.Sprintf`,
`encoding/base64`, `encoding/hex`, `crypto/subtle`).

Conventions
* A Go `string` is modelled by the list of runes that `ReadRune` yields from it
  (`List Char`).  `strings.Split` on the ASCII separator, the comparison with
  an ASCII literal, `fmt.Sscanf` (which reads runes) and the base64 decoder
  (which rejects every byte at or above 0x80) cannot tell a byte string from
  its rune sequence.
* A Go `[]byte` is a `List Byte` with `Byte = Fin 256`.
* `uint32`, `uint8` and `int` values are natural numbers / integers; the range
  checks of the code are written out with explicit bounds.
* A panic is the value `none` of an `Option`; a returned Go `error` is the
  `Except.error` branch (or an `Option Error` next to the boolean).
* The cryptographic primitives (`argon2.IDKey`, `sha256.Sum256`,
  `bcrypt.CompareHashAndPassword`) and the random source are parameters.
* `fmt.Sscanf` is modelled for inputs shorter than its internal rune limit
  (2^30 runes); `int` is 64 bits wide.
-/

namespace Gopkg

/-- One byte of a Go byte slice. -/
abbrev Byte := Fin 256

/-! ## encoding/base64 -/

namespace Base64

/-- The standard alphabet (`base64.StdEncoding`, RFC 4648 section 4). -/
def encodeStd : List Char :=
  ['A', 'B', 'C', 'D', 'E', 'F', 'G', 'H', 'I', 'J', 'K', 'L', 'M',
   'N', 'O', 'P', 'Q', 'R', 'S', 'T', 'U', 'V', 'W', 'X', 'Y', 'Z',
   'a', 'b', 'c', 'd', 'e', 'f', 'g', 'h', 'i', 'j', 'k', 'l', 'm',
   'n', 'o', 'p', 'q', 'r', 's', 't', 'u', 'v', 'w', 'x', 'y', 'z',
   '0', '1', '2', '3', '4', '5', '6', '7', '8', '9', '+', '/']

/-- The URL-safe alphabet (`base64.URLEncoding`, RFC 4648 section 5). -/
def encodeURL : List Char :=
  ['A', 'B', 'C', 'D', 'E', 'F', 'G', 'H', 'I', 'J', 'K', 'L', 'M',
   'N', 'O', 'P', 'Q', 'R', 'S', 'T', 'U', 'V', 'W', 'X', 'Y', 'Z',
   'a', 'b', 'c', 'd', 'e', 'f', 'g', 'h', 'i', 'j', 'k', 'l', 'm',
   'n', 'o', 'p', 'q', 'r', 's', 't', 'u', 'v', 'w', 'x', 'y', 'z',
   '0', '1', '2', '3', '4', '5', '6', '7', '8', '9', '-', '_']

/-- The table lookup `enc.encode[i]`. -/
def encodeChar (alphabet : List Char) (i : Nat) : Char := alphabet.getD i 'A'

/-- The table lookup `enc.decodeMap[in]`: the index of `c` in the alphabet, `none` standing
for the entry 0xff of a byte that is not in the alphabet. -/
def decodeMap (alphabet : List Char) (c : Char) : Option Nat :=
  if alphabet.indexOf c < alphabet.length then some (alphabet.indexOf c) else none

/-- The unpadded encoder, `Encoding.Encode` with `padChar = NoPadding`:
three source bytes give four characters, a rest of two bytes three and a rest of one
byte two. -/
def EncodeToString (alphabet : List Char) : List Byte → List Char
  | b0 :: b1 :: b2 :: rest =>
    let val := b0.val <<< 16 ||| b1.val <<< 8 ||| b2.val
    encodeChar alphabet (val >>> 18 &&& 0x3F) ::
    encodeChar alphabet (val >>> 12 &&& 0x3F) ::
    encodeChar alphabet (val >>> 6 &&& 0x3F) ::
    encodeChar alphabet (val &&& 0x3F) :: EncodeToString alphabet rest
  | [b0, b1] =>
    let val := b0.val <<< 16 ||| b1.val <<< 8
    [encodeChar alphabet (val >>> 18 &&& 0x3F),
     encodeChar alphabet (val >>> 12 &&& 0x3F),
     encodeChar alphabet (val >>> 6 &&& 0x3F)]
  | [b0] =>
    let val := b0.val <<< 16
    [encodeChar alphabet (val >>> 18 &&& 0x3F),
     encodeChar alphabet (val >>> 12 &&& 0x3F)]
  | [] => []

/-- The conversion `byte(x)` of an unsigned integer. -/
def toByte (x : Nat) : Byte := ⟨x % 256, Nat.mod_lt _ (by decide)⟩

/-- The tail of `decodeQuantum`: the `dlen` sextets collected in `dbuf` (the missing ones
are zero) are packed into 24 bits, of which `dlen - 1` bytes are written. The encoding is
not strict, so bits left over in a short last quantum are dropped. -/
def quantumBytes (dbuf : List Nat) : List Byte :=
  let val := dbuf.getD 0 0 <<< 18 ||| dbuf.getD 1 0 <<< 12 ||| dbuf.getD 2 0 <<< 6 |||
    dbuf.getD 3 0
  ([toByte (val >>> 16), toByte (val >>> 8), toByte val]).take (dbuf.length - 1)

/-- The loop of `Encoding.Decode` over `decodeQuantum` for an unpadded encoding. `dbuf`
holds the sextets of the quantum being read. A character of the alphabet is stored, and
the fourth one completes the quantum; carriage return and line feed are skipped; any other
character is a `CorruptInputError` (`none`), and so is an input that ends one character
into a quantum. -/
def decodeLoop (alphabet : List Char) : List Char → List Nat → Option (List Byte)
  | [], dbuf =>
    if dbuf.length = 0 then some []
    else if dbuf.length = 1 then none
    else some (quantumBytes dbuf)
  | c :: rest, dbuf =>
    match decodeMap alphabet c with
    | some out =>
      if dbuf.length = 3 then
        (decodeLoop alphabet rest []).map (fun tl => quantumBytes (dbuf ++ [out]) ++ tl)
      else decodeLoop alphabet rest (dbuf ++ [out])
    | none =>
      if c = '\n' ∨ c = '\r' then decodeLoop alphabet rest dbuf
      else none

/-- The function `Encoding.DecodeString` of an unpadded encoding. -/
def DecodeString (alphabet : List Char) (s : List Char) : Option (List Byte) :=
  decodeLoop alphabet s []

end Base64

/-! ## encoding/hex -/

namespace Hex

/-- The table `hextable`. -/
def hextable : List Char :=
  ['0', '1', '2', '3', '4', '5', '6', '7', '8', '9', 'a', 'b', 'c', 'd', 'e', 'f']

/-- The function `hex.EncodeToString`: `hextable[v>>4]` and `hextable[v&0x0f]` for every
byte `v`. -/
def EncodeToString : List Byte → List Char
  | [] => []
  | v :: rest =>
    hextable.getD (v.val >>> 4) '0' :: hextable.getD (v.val &&& 0x0f) '0' ::
      EncodeToString rest

end Hex

/-! ## unicode/utf8 -/

namespace Utf8

/-- The function `utf8.AppendRune` on a valid rune: its UTF-8 encoding. -/
def encodeRune (c : Char) : List Byte :=
  let r := c.toNat
  if r ≤ 0x7F then [Base64.toByte r]
  else if r ≤ 0x7FF then
    [Base64.toByte (0xC0 ||| r >>> 6), Base64.toByte (0x80 ||| r &&& 0x3F)]
  else if r ≤ 0xFFFF then
    [Base64.toByte (0xE0 ||| r >>> 12), Base64.toByte (0x80 ||| r >>> 6 &&& 0x3F),
     Base64.toByte (0x80 ||| r &&& 0x3F)]
  else
    [Base64.toByte (0xF0 ||| r >>> 18), Base64.toByte (0x80 ||| r >>> 12 &&& 0x3F),
     Base64.toByte (0x80 ||| r >>> 6 &&& 0x3F), Base64.toByte (0x80 ||| r &&& 0x3F)]

/-- The conversion `[]byte(s)` of a string given by its runes. -/
def bytes (s : List Char) : List Byte := s.flatMap encodeRune

end Utf8

/-! ## strings -/

namespace Strings

/-- The function `strings.Split(s, sep)` for a separator of one ASCII character: the
pieces between the occurrences of `sep`, one more than there are occurrences. -/
def Split (sep : Char) : List Char → List (List Char)
  | [] => [[]]
  | c :: rest =>
    if c = sep then [] :: Split sep rest
    else
      match Split sep rest with
      | [] => [[c]]
      | p :: ps => (c :: p) :: ps

end Strings

/-! ## strconv -/

namespace Strconv

/-- The constant `maxUint64`. -/
def maxUint64 : Nat := 2 ^ 64 - 1

/-- The digit loop of `strconv.ParseUint(s, 10, 64)`; `none` is a returned error (syntax
or range). `n` is the `uint64` accumulator. -/
def parseUintLoop : List Char → Nat → Option Nat
  | [], n => some n
  | c :: rest, n =>
    if '0' ≤ c ∧ c ≤ '9' then
      let d := c.toNat - '0'.toNat
      -- cutoff = maxUint64/10 + 1: n*base overflows
      if n ≥ maxUint64 / 10 + 1 then none
      else
        let n10 := n * 10 % 2 ^ 64
        let n1 := (n10 + d) % 2 ^ 64
        -- n+d overflows
        if n1 < n10 ∨ n1 > maxUint64 then none
        else parseUintLoop rest n1
    else none

/-- The function `strconv.ParseUint(s, 10, 64)`; `none` is a returned error. -/
def ParseUint (s : List Char) : Option Nat :=
  if s = [] then none else parseUintLoop s 0

/-- The function `strconv.ParseInt(s, 10, 64)`; `none` is a returned error. A leading sign
is picked off, the rest is converted unsigned and checked against `cutoff = 1 << 63`. -/
def ParseInt (s : List Char) : Option Int :=
  match s with
  | [] => none
  | c :: rest =>
    let neg := decide (c = '-')
    let s1 := if c = '+' ∨ c = '-' then rest else s
    match ParseUint s1 with
    | none => none
    | some un =>
      if !neg ∧ un ≥ 2 ^ 63 then none
      else if neg ∧ un > 2 ^ 63 then none
      else some (if neg then -(un : Int) else (un : Int))

end Strconv

/-! ## fmt -/

namespace Fmt

/-- The table `space` of fmt/scan.go. -/
def space : List (Nat × Nat) :=
  [(0x0009, 0x000d), (0x0020, 0x0020), (0x0085, 0x0085), (0x00a0, 0x00a0),
   (0x1680, 0x1680), (0x2000, 0x200a), (0x2028, 0x2029), (0x202f, 0x202f),
   (0x205f, 0x205f), (0x3000, 0x3000)]

/-- The loop of `isSpace` over the table. -/
def isSpaceLoop : List (Nat × Nat) → Nat → Bool
  | [], _ => false
  | rng :: rest, rx =>
    if rx < rng.1 then false
    else if rx ≤ rng.2 then true
    else isSpaceLoop rest rx

/-- The function `isSpace` of fmt/scan.go. -/
def isSpace (r : Char) : Bool :=
  if r.toNat ≥ 2 ^ 16 then false else isSpaceLoop space r.toNat

/-- The constant `decimalDigits`. -/
def decimalDigits : List Char := ['0', '1', '2', '3', '4', '5', '6', '7', '8', '9']

/-- The constant `sign`. -/
def sign : List Char := ['+', '-']

/-- The method `ss.SkipSpace` of a scanner made by `Sscanf` (`nlIsSpace` is false): spaces
are consumed, a line feed is the error "unexpected newline" (`none`). The result is the
input left. -/
def SkipSpace : List Char → Option (List Char)
  | [] => some []
  | r :: rest =>
    if r = '\r' ∧ rest.head? = some '\n' then SkipSpace rest
    else if r = '\n' then none
    else if !isSpace r then some (r :: rest)
    else SkipSpace rest

/-- The loop `for s.accept(ok)` of `scanNumber`: the characters accepted and the input
left. -/
def acceptLoop (ok : List Char) : List Char → List Char × List Char
  | [] => ([], [])
  | r :: rest =>
    if r ∈ ok then ((r :: (acceptLoop ok rest).1), (acceptLoop ok rest).2)
    else ([], r :: rest)

/-- The method `ss.scanNumber(digits, false)`: the input is not at its end and starts with
a digit (otherwise the errors `io.EOF` and "expected integer"); the token of digits and
the input left. -/
def scanNumber (digits : List Char) : List Char → Option (List Char × List Char)
  | [] => none
  | r :: rest =>
    if r ∈ digits then some (r :: (acceptLoop digits rest).1, (acceptLoop digits rest).2)
    else none

/-- The method `ss.scanUint` for the verb `d` and a destination of `bitSize` bits: the value
and the input left, `none` for an error. -/
def scanUint (bitSize : Nat) (input : List Char) : Option (Nat × List Char) :=
  match SkipSpace input with
  | none => none
  | some input =>
    -- s.notEOF() is the first check of scanNumber
    match scanNumber decimalDigits input with
    | none => none
    | some (tok, rest) =>
      match Strconv.ParseUint tok with
      | none => none
      | some i =>
        -- x := (i << (64 - n)) >> (64 - n)
        if ((i <<< (64 - bitSize)) % 2 ^ 64) >>> (64 - bitSize) ≠ i then none
        else some (i, rest)

/-- The method `ss.scanInt` for the verb `d` and a destination of type `int` (64 bits, so
the final overflow test shifts by zero): the value and the input left. -/
def scanInt (input : List Char) : Option (Int × List Char) :=
  match SkipSpace input with
  | none => none
  | some [] => none
  | some (r :: rest) =>
    -- s.accept(sign)
    let sgn := if r ∈ sign then [r] else []
    let input := if r ∈ sign then rest else r :: rest
    match scanNumber decimalDigits input with
    | none => none
    | some (tok, rest) =>
      match Strconv.ParseInt (sgn ++ tok) with
      | none => none
      | some i => some (i, rest)

/-- A literal character of the format in `ss.advance`: the next rune of the input has to
be that character (otherwise "input does not match format" or "unexpected EOF"). -/
def literal (c : Char) : List Char → Option (List Char)
  | [] => none
  | r :: rest => if c = r then some rest else none

/-- The verb `%d` in `ss.doScanf` with an `int` destination: `SkipSpace`, then
`scanOne`. -/
def verbInt (input : List Char) : Option (Int × List Char) :=
  match SkipSpace input with
  | none => none
  | some input => scanInt input

/-- The verb `%d` in `ss.doScanf` with an unsigned destination of `bitSize` bits. -/
def verbUint (bitSize : Nat) (input : List Char) : Option (Nat × List Char) :=
  match SkipSpace input with
  | none => none
  | some input => scanUint bitSize input

/-- The call `fmt.Sscanf(str, "v=%d", &version)` with `version` of type `int`: the value
stored, `none` when an error is returned. Input left after the format is not looked at. -/
def SscanfVersion (str : List Char) : Option Int :=
  match literal 'v' str with
  | none => none
  | some s1 =>
    match literal '=' s1 with
    | none => none
    | some s2 =>
      match verbInt s2 with
      | none => none
      | some (version, _) => some version

/-- The call `fmt.Sscanf(str, "m=%d,t=%d,p=%d", &memory, &iterations, &parallelism)` with
destinations of type `uint32`, `uint32` and `uint8`: the three values stored, `none` when
an error is returned. Input left after the format is not looked at. -/
def SscanfParams (str : List Char) : Option (Nat × Nat × Nat) :=
  match literal 'm' str with
  | none => none
  | some s1 =>
  match literal '=' s1 with
  | none => none
  | some s2 =>
  match verbUint 32 s2 with
  | none => none
  | some (memory, s3) =>
  match literal ',' s3 with
  | none => none
  | some s4 =>
  match literal 't' s4 with
  | none => none
  | some s5 =>
  match literal '=' s5 with
  | none => none
  | some s6 =>
  match verbUint 32 s6 with
  | none => none
  | some (iterations, s7) =>
  match literal ',' s7 with
  | none => none
  | some s8 =>
  match literal 'p' s8 with
  | none => none
  | some s9 =>
  match literal '=' s9 with
  | none => none
  | some s10 =>
  match verbUint 8 s10 with
  | none => none
  | some (parallelism, _) => some (memory, iterations, parallelism)

/-- The digit written by `fmtInteger`: `byte('0' + d)`. -/
def digitChar (d : Nat) : Char := Char.ofNat ('0'.toNat + d)

/-- The verb `%d` of `fmt.Sprintf` on an unsigned value (`fmtInteger` in base 10): the
digits are produced from the last to the first, by division by 10. -/
def formatUint (u : Nat) : List Char :=
  if u ≥ 10 then formatUint (u / 10) ++ [digitChar (u % 10)] else [digitChar u]
termination_by u
decreasing_by omega

/-- The verb `%d` of `fmt.Sprintf` on a signed value: a minus sign before the digits of
the absolute value of a negative number. -/
def formatInt (v : Int) : List Char :=
  if v < 0 then '-' :: formatUint v.natAbs else formatUint v.natAbs

end Fmt

/-! ## crypto/subtle -/

namespace Subtle

/-- The loop `v |= x[i] ^ y[i]` of `subtle.ConstantTimeCompare`. -/
def xorOr : List Byte → List Byte → Nat → Nat
  | x :: xs, y :: ys, v => xorOr xs ys (v ||| (x.val ^^^ y.val))
  | _, _, v => v

/-- The function `subtle.ConstantTimeCompare`: 0 when the lengths differ, otherwise 1 when
the slices are equal and 0 when they are not. -/
def ConstantTimeCompare (x y : List Byte) : Nat :=
  if x.length ≠ y.length then 0
  else if xorOr x y 0 = 0 then 1 else 0

end Subtle

/-! ## crypto/password -/

namespace Password

/-- The errors `bcrypt.CompareHashAndPassword` returns. -/
inductive BcryptError where
  | ErrMismatchedHashAndPassword
  | ErrHashTooShort
  | HashVersionTooNewError (version : Nat)
  | InvalidHashPrefixError (first : Nat)
  | InvalidCostError (cost : Int)
  deriving DecidableEq, Repr

/-- The error values of the package: its two sentinel errors, the wrapped failure of the
random source (`"generate salt: %w"`), and an error of the bcrypt primitive handed on as
it is. -/
inductive Error where
  | ErrInvalidHash
  | ErrIncompatibleVersion
  | generateSalt
  | bcrypt (err : BcryptError)
  deriving DecidableEq, Repr

/-- The constant `argon2.Version`. -/
def Version : Int := 0x13

/-- The struct `Argon2Config`; `Memory`, `Iterations`, `SaltLength` and `KeyLength` are
`uint32` and `Parallelism` is `uint8`. -/
structure Argon2Config where
  Memory : Nat
  Iterations : Nat
  Parallelism : Nat
  SaltLength : Nat
  KeyLength : Nat
  deriving DecidableEq, Repr

/-- The function `DefaultArgon2Config`. -/
def DefaultArgon2Config : Argon2Config where
  Memory := 64 * 1024
  Iterations := 3
  Parallelism := 2
  SaltLength := 16
  KeyLength := 32

/-- The struct `Argon2Hasher`. -/
structure Argon2Hasher where
  cfg : Argon2Config
  deriving DecidableEq, Repr

/-- The function `NewArgon2`. -/
def NewArgon2 (cfg : Argon2Config) : Argon2Hasher where
  cfg := cfg

/-- The struct `argon2Params`. -/
structure argon2Params where
  memory : Nat
  iterations : Nat
  parallelism : Nat
  keyLength : Nat
  deriving DecidableEq, Repr

/-- The digest computation of Argon2id, a function of the password bytes, the salt, the
number of passes, the memory size, the number of threads and the key length. -/
abbrev KeyFunction := List Byte → List Byte → Nat → Nat → Nat → Nat → List Byte

/-- The call `argon2.IDKey(password, salt, time, memory, threads, keyLen)`: the library
panics (`none`) for `time < 1` and for `threads < 1`, and a key length of zero makes it
panic as well; otherwise it returns the digest. -/
def IDKey (F : KeyFunction) (password salt : List Byte) (time memory threads keyLen : Nat) :
    Option (List Byte) :=
  if time < 1 then none
  else if threads < 1 then none
  else if keyLen < 1 then none
  else some (F password salt time memory threads keyLen)

/-- The call `fmt.Sprintf("$argon2id$v=%d$m=%d,t=%d,p=%d$%s$%s", ...)` of `Hash`. -/
def sprintfEncoded (version : Int) (memory iterations parallelism : Nat)
    (salt hash : List Char) : List Char :=
  ['$', 'a', 'r', 'g', 'o', 'n', '2', 'i', 'd', '$', 'v', '='] ++ Fmt.formatInt version ++
  ['$', 'm', '='] ++ Fmt.formatUint memory ++
  [',', 't', '='] ++ Fmt.formatUint iterations ++
  [',', 'p', '='] ++ Fmt.formatUint parallelism ++
  ['$'] ++ salt ++ ['$'] ++ hash

/-- The method `Argon2Hasher.Hash`. `rand n` is what `rand.Read` does with a slice of
length `n`: the bytes it fills in, or `none` for an error. The result is `none` when the
call panics. -/
def Argon2Hasher.Hash (F : KeyFunction) (rand : Nat → Option (List Byte)) (h : Argon2Hasher)
    (password : List Char) : Option (Except Error (List Char)) :=
  match rand h.cfg.SaltLength with
  | none => some (.error Error.generateSalt)
  | some salt =>
    match IDKey F (Utf8.bytes password) salt h.cfg.Iterations h.cfg.Memory h.cfg.Parallelism
        h.cfg.KeyLength with
    | none => none
    | some hash =>
      some (.ok (sprintfEncoded Version h.cfg.Memory h.cfg.Iterations h.cfg.Parallelism
        (Base64.EncodeToString Base64.encodeStd salt)
        (Base64.EncodeToString Base64.encodeStd hash)))

/-- The method `Argon2Hasher.decodeHash`; it does not use its receiver. -/
def Argon2Hasher.decodeHash (_h : Argon2Hasher) (encoded : List Char) :
    Except Error (argon2Params × List Byte × List Byte) :=
  match Strings.Split '$' encoded with
  | [_, p1, p2, p3, p4, p5] =>
    if p1 ≠ ['a', 'r', 'g', 'o', 'n', '2', 'i', 'd'] then .error Error.ErrInvalidHash
    else
      match Fmt.SscanfVersion p2 with
      | none => .error Error.ErrInvalidHash
      | some version =>
        if version ≠ Version then .error Error.ErrIncompatibleVersion
        else
          match Fmt.SscanfParams p3 with
          | none => .error Error.ErrInvalidHash
          | some (memory, iterations, parallelism) =>
            match Base64.DecodeString Base64.encodeStd p4 with
            | none => .error Error.ErrInvalidHash
            | some salt =>
              match Base64.DecodeString Base64.encodeStd p5 with
              | none => .error Error.ErrInvalidHash
              | some hash =>
                .ok ({ memory := memory, iterations := iterations,
                       parallelism := parallelism,
                       keyLength := hash.length % 2 ^ 32 }, salt, hash)
  | _ => .error Error.ErrInvalidHash

/-- The method `Argon2Hasher.Verify`: the boolean and the error returned, `none` when the
call panics. -/
def Argon2Hasher.Verify (F : KeyFunction) (h : Argon2Hasher) (password encoded : List Char) :
    Option (Bool × Option Error) :=
  match h.decodeHash encoded with
  | .error err => some (false, some err)
  | .ok (params, salt, hash) =>
    match IDKey F (Utf8.bytes password) salt params.iterations params.memory
        params.parallelism params.keyLength with
    | none => none
    | some computed => some (decide (Subtle.ConstantTimeCompare hash computed = 1), none)

/-- The constant `bcrypt.DefaultCost`. -/
def DefaultCost : Int := 10

/-- The struct `BcryptHasher`. -/
structure BcryptHasher where
  cost : Int
  deriving DecidableEq, Repr

/-- The function `NewBcrypt`. -/
def NewBcrypt (cost : Int) : BcryptHasher where
  cost := if cost = 0 then DefaultCost else cost

/-- The method `BcryptHasher.Verify`; it does not use its receiver. `compare` is
`bcrypt.CompareHashAndPassword`, whose result is `none` for a nil error; the primitive
returns its errors unwrapped, so `errors.Is` is an equality test. -/
def BcryptHasher.Verify (compare : List Byte → List Byte → Option BcryptError)
    (_h : BcryptHasher) (password hash : List Char) : Bool × Option Error :=
  let err := compare (Utf8.bytes hash) (Utf8.bytes password)
  if err = some BcryptError.ErrMismatchedHashAndPassword then (false, none)
  else
    match err with
    | some e => (false, some (Error.bcrypt e))
    | none => (true, none)

end Password

/-! ## crypto/token -/

namespace Token

/-- The error of `Generate`: the wrapped failure of the random source. -/
inductive Error where
  | generateToken
  deriving DecidableEq, Repr

/-- The function `token.Hash`; `Sum256` is `sha256.Sum256`. -/
def Hash (Sum256 : List Byte → List Byte) (token : List Char) : List Char :=
  Hex.EncodeToString (Sum256 (Utf8.bytes token))

/-- The function `token.Generate` for a length that is not negative: the plaintext and
its hash, or the error. `rand n` is what `rand.Read` does with a slice of length `n`. -/
def Generate (Sum256 : List Byte → List Byte) (rand : Nat → Option (List Byte))
    (length : Nat) : Except Error (List Char × List Char) :=
  match rand length with
  | none => .error Error.generateToken
  | some b =>
    let plain := Base64.EncodeToString Base64.encodeURL b
    .ok (plain, Hash Sum256 plain)

end Token

/-! ## Sample inputs -/

namespace Example

/-- A stand-in for the Argon2id digest function: `keyLen` bytes of value 7. -/
def keyFunction : Password.KeyFunction := fun _ _ _ _ _ k => List.replicate k 7

/-- A stand-in for the random source: `n` bytes of value 1. -/
def rand : Nat → Option (List Byte) := fun n => some (List.replicate n 1)

/-- A stand-in for SHA-256: the first two bytes of the input. -/
def sum : List Byte → List Byte := fun x => x.take 2

/-- A hasher with the default configuration. -/
def hasher : Password.Argon2Hasher := Password.NewArgon2 Password.DefaultArgon2Config

end Example

/-! ## Vocabulary of the statements -/

namespace Grammar

/-- The value of a string of decimal digits, most significant digit first. -/
def decimalValue (ds : List Char) : Nat :=
  ds.foldl (fun a c => a * 10 + (c.toNat - '0'.toNat)) 0

/-- A blank that a number of the encoded form may be preceded by: a space character of
`fmt` other than the line feed. -/
def Blank (c : Char) : Prop := Fmt.isSpace c = true ∧ c ≠ '\n'

/-- A non-empty string of decimal digits. -/
def IsDigits (ds : List Char) : Prop := ds ≠ [] ∧ ∀ c ∈ ds, c ∈ Fmt.decimalDigits

/-- The string does not start with a decimal digit. -/
def NoDigitAhead (s : List Char) : Prop := ∀ c ∈ s.head?, c ∉ Fmt.decimalDigits

/-- The string `s` starts, after optional blanks, with an unsigned decimal number of
value `v` below `bound`; `rest` is what follows its last digit. -/
def UintText (bound v : Nat) (s rest : List Char) : Prop :=
  ∃ ws ds, s = ws ++ ds ++ rest ∧ (∀ c ∈ ws, Blank c) ∧ IsDigits ds ∧ NoDigitAhead rest ∧
    decimalValue ds = v ∧ v < bound

/-- The string `s` starts, after optional blanks, with a decimal number with an optional
sign, of a value `v` that fits 64 bits; `rest` is what follows its last digit. -/
def IntText (v : Int) (s rest : List Char) : Prop :=
  ∃ ws sgn ds, s = ws ++ sgn ++ ds ++ rest ∧ (∀ c ∈ ws, Blank c) ∧
    (sgn = [] ∨ sgn = ['+'] ∨ sgn = ['-']) ∧ IsDigits ds ∧ NoDigitAhead rest ∧
    v = (if sgn = ['-'] then -(decimalValue ds : Int) else (decimalValue ds : Int)) ∧
    -(2 ^ 63) ≤ v ∧ v < 2 ^ 63

/-- The version field as the decoder reads it: `v=`, then a number of value `v` with
optional blanks before it and an optional sign, then anything. -/
def VersionField (v : Int) (f : List Char) : Prop :=
  ∃ t rest, f = 'v' :: '=' :: t ∧ IntText v t rest

/-- The parameter field as the decoder reads it: `m=`, `,t=` and `,p=`, each followed by
an unsigned number (32, 32 and 8 bits) with optional blanks before it; anything may follow
the last number. -/
def ParamsField (m t p : Nat) (f : List Char) : Prop :=
  ∃ s1 s2 s3 rest, f = 'm' :: '=' :: s1 ∧
    UintText (2 ^ 32) m s1 (',' :: 't' :: '=' :: s2) ∧
    UintText (2 ^ 32) t s2 (',' :: 'p' :: '=' :: s3) ∧
    UintText (2 ^ 8) p s3 rest

/-- A salt or digest field as the decoder reads it: characters of the standard alphabet
with carriage returns and line feeds anywhere between them, the number of alphabet
characters not being 1 modulo 4. -/
def Base64Field (f : List Char) : Prop :=
  (∀ c ∈ f, c ∈ Base64.encodeStd ∨ c = '\n' ∨ c = '\r') ∧
    (f.filter (fun c => decide (c ∈ Base64.encodeStd))).length % 4 ≠ 1

/-- The tag of the format, `argon2id`. -/
def tag : List Char := ['a', 'r', 'g', 'o', 'n', '2', 'i', 'd']

/-- Six fields joined by the delimiter `$`. -/
def joinFields (f0 f1 f2 f3 f4 f5 : List Char) : List Char :=
  f0 ++ '$' :: (f1 ++ '$' :: (f2 ++ '$' :: (f3 ++ '$' :: (f4 ++ '$' :: f5))))

/-- The string `ds` is the decimal numeral of `n` without leading zeros. -/
def IsDecimal (n : Nat) (ds : List Char) : Prop :=
  IsDigits ds ∧ decimalValue ds = n ∧ (ds.head? = some '0' → ds = ['0'])

/-- The string `s` consists of characters of the alphabet and has the length of the
unpadded base64 encoding of `n` bytes, `ceil(4n/3)`. -/
def IsBase64Of (alphabet : List Char) (n : Nat) (s : List Char) : Prop :=
  (∀ c ∈ s, c ∈ alphabet) ∧ s.length = (4 * n + 2) / 3

/-- The encoding grammar as the specification writes it: an empty first field, the tag,
`v=<int>`, `m=<int>,t=<int>,p=<int>` with nothing else in these fields, and two fields
over the standard base64 alphabet. -/
def Conforms (e : List Char) : Prop :=
  ∃ vs ms ts ps salt digest,
    e = joinFields [] tag ('v' :: '=' :: vs)
      ('m' :: '=' :: ms ++ ',' :: 't' :: '=' :: ts ++ ',' :: 'p' :: '=' :: ps) salt digest ∧
    (IsDigits vs ∨ ∃ ds, vs = '-' :: ds ∧ IsDigits ds) ∧
    IsDigits ms ∧ IsDigits ts ∧ IsDigits ps ∧
    (∀ c ∈ salt, c ∈ Base64.encodeStd) ∧ (∀ c ∈ digest, c ∈ Base64.encodeStd)

/-- The strings the decoder accepts, with parameters `m`, `t` and `p`: six fields, none
containing the delimiter, of which the first is arbitrary, the second the tag, the third a
version field of the compiled version, the fourth a parameter field and the last two
base64 fields. -/
def Accepted (m t p : Nat) (e : List Char) : Prop :=
  ∃ f0 f2 f3 f4 f5, e = joinFields f0 tag f2 f3 f4 f5 ∧
    '$' ∉ f0 ∧ '$' ∉ f2 ∧ '$' ∉ f3 ∧ '$' ∉ f4 ∧ '$' ∉ f5 ∧
    VersionField Password.Version f2 ∧ ParamsField m t p f3 ∧
    Base64Field f4 ∧ Base64Field f5

end Grammar

end Gopkg

namespace Gopkg
namespace Base64

theorem and63 (x : Nat) : x &&& 0x3F = x % 64 := Nat.and_pow_two_sub_one_eq_mod x 6

theorem or_shift (a b i : Nat) (hb : b < 2 ^ i) : a <<< i ||| b = a * 2 ^ i + b := by
  rw [Nat.shiftLeft_eq, Nat.mul_comm a, Nat.mul_add_lt_is_or hb]

theorem pack2 (a b : Nat) (hb : b < 256) :
    a <<< 16 ||| b <<< 8 = a * 65536 + b * 256 := by
  rw [or_shift a (b <<< 8) 16 (by rw [Nat.shiftLeft_eq]; omega), Nat.shiftLeft_eq]
  norm_num

theorem pack3 (a b c : Nat) (hb : b < 256) (hc : c < 256) :
    a <<< 16 ||| b <<< 8 ||| c = a * 65536 + b * 256 + c := by
  have h1 := pack2 a b hb
  have h2 : a * 65536 + b * 256 = (a * 256 + b) <<< 8 := by
    rw [Nat.shiftLeft_eq]; omega
  rw [h1, h2, or_shift _ c 8 (by omega)]
  omega

theorem pack4 (a b c d : Nat) (hb : b < 64) (hc : c < 64) (hd : d < 64) :
    a <<< 18 ||| b <<< 12 ||| c <<< 6 ||| d = a * 262144 + b * 4096 + c * 64 + d := by
  have h1 : a <<< 18 ||| b <<< 12 = (a * 64 + b) <<< 12 := by
    rw [or_shift a (b <<< 12) 18 (by rw [Nat.shiftLeft_eq]; omega), Nat.shiftLeft_eq,
      Nat.shiftLeft_eq]
    omega
  have h2 : (a * 64 + b) <<< 12 ||| c <<< 6 = ((a * 64 + b) * 64 + c) <<< 6 := by
    rw [or_shift _ (c <<< 6) 12 (by rw [Nat.shiftLeft_eq]; omega), Nat.shiftLeft_eq,
      Nat.shiftLeft_eq]
    omega
  rw [h1, h2, or_shift _ d 6 (by omega)]
  omega

theorem decodeMap_encodeStd : ∀ i : Fin 64,
    decodeMap encodeStd (encodeChar encodeStd i.val) = some i.val := by decide

theorem decodeMap_encodeStd_mod (x : Nat) :
    decodeMap encodeStd (encodeChar encodeStd (x % 64)) = some (x % 64) :=
  decodeMap_encodeStd ⟨x % 64, Nat.mod_lt _ (by decide)⟩

theorem quantum3 (b0 b1 b2 : Byte) :
    quantumBytes
      [(b0.val * 65536 + b1.val * 256 + b2.val) / 262144 % 64,
       (b0.val * 65536 + b1.val * 256 + b2.val) / 4096 % 64,
       (b0.val * 65536 + b1.val * 256 + b2.val) / 64 % 64,
       (b0.val * 65536 + b1.val * 256 + b2.val) % 64] = [b0, b1, b2] := by
  have h0 := b0.isLt
  have h1 := b1.isLt
  have h2 := b2.isLt
  simp only [quantumBytes, List.getD_cons_zero, List.getD_cons_succ, List.length_cons,
    List.length_nil]
  rw [pack4 _ _ _ _ (Nat.mod_lt _ (by decide)) (Nat.mod_lt _ (by decide))
    (Nat.mod_lt _ (by decide))]
  simp only [Nat.shiftRight_eq_div_pow, toByte]
  simp only [List.take, List.cons.injEq, and_true]
  refine ⟨Fin.ext ?_, Fin.ext ?_, Fin.ext ?_⟩ <;> simp only [] <;> omega


theorem quantum2 (b0 b1 : Byte) :
    quantumBytes
      [(b0.val * 65536 + b1.val * 256) / 262144 % 64,
       (b0.val * 65536 + b1.val * 256) / 4096 % 64,
       (b0.val * 65536 + b1.val * 256) / 64 % 64] = [b0, b1] := by
  have h0 := b0.isLt
  have h1 := b1.isLt
  simp only [quantumBytes, List.getD_cons_zero, List.getD_cons_succ, List.length_cons,
    List.length_nil, List.getD_nil]
  rw [pack4 _ _ _ _ (Nat.mod_lt _ (by decide)) (Nat.mod_lt _ (by decide)) (by decide)]
  simp only [Nat.shiftRight_eq_div_pow, toByte]
  simp only [List.take, List.cons.injEq, and_true]
  refine ⟨Fin.ext ?_, Fin.ext ?_⟩ <;> simp only [] <;> omega

theorem quantum1 (b0 : Byte) :
    quantumBytes [(b0.val * 65536) / 262144 % 64, (b0.val * 65536) / 4096 % 64] = [b0] := by
  have h0 := b0.isLt
  simp only [quantumBytes, List.getD_cons_zero, List.getD_cons_succ, List.length_cons,
    List.length_nil, List.getD_nil]
  rw [pack4 _ _ _ _ (Nat.mod_lt _ (by decide)) (by decide) (by decide)]
  simp only [Nat.shiftRight_eq_div_pow, toByte]
  simp only [List.take, List.cons.injEq, and_true]
  refine Fin.ext ?_
  simp only []
  omega

/-- Decoding inverts encoding (standard alphabet, no padding). -/
theorem decodeString_encodeToString :
    ∀ bs : List Byte, DecodeString encodeStd (EncodeToString encodeStd bs) = some bs
  | b0 :: b1 :: b2 :: rest => by
    have ih := decodeString_encodeToString rest
    simp only [DecodeString] at ih ⊢
    simp only [EncodeToString, and63, pack3 b0.val b1.val b2.val b1.isLt b2.isLt,
      Nat.shiftRight_eq_div_pow]
    simp only [decodeLoop, decodeMap_encodeStd_mod, List.length_nil, List.nil_append,
      List.length_cons, List.cons_append, ih]
    simp only [Nat.reducePow, Nat.reduceEqDiff, ↓reduceIte, Option.map_some', quantum3,
      List.cons_append, List.nil_append, Nat.zero_add, Nat.reduceAdd, OfNat.ofNat_ne_zero,
      OfNat.zero_ne_ofNat]
  | [b0, b1] => by
    simp only [DecodeString]
    simp only [EncodeToString, and63, pack2 b0.val b1.val b1.isLt, Nat.shiftRight_eq_div_pow]
    simp only [decodeLoop, decodeMap_encodeStd_mod, List.length_nil, List.nil_append,
      List.length_cons, List.cons_append]
    simp [quantum2]
  | [b0] => by
    simp only [DecodeString]
    simp only [EncodeToString, and63, Nat.shiftLeft_eq, Nat.shiftRight_eq_div_pow]
    simp only [decodeLoop, decodeMap_encodeStd_mod, List.length_nil, List.nil_append,
      List.length_cons, List.cons_append]
    simp [quantum1]
  | [] => by simp [DecodeString, EncodeToString, decodeLoop]

end Base64

namespace Strconv
open Grammar

theorem digit_range : ∀ c ∈ Fmt.decimalDigits, ('0' ≤ c ∧ c ≤ '9') ∧ c.toNat - '0'.toNat < 10 := by
  decide

theorem foldl_ge (ds : List Char) : ∀ a : Nat,
    a ≤ ds.foldl (fun a c => a * 10 + (c.toNat - '0'.toNat)) a := by
  induction ds with
  | nil => intro a; exact Nat.le_refl a
  | cons c ds ih =>
    intro a
    simp only [List.foldl_cons]
    exact Nat.le_trans (by omega) (ih _)

theorem parseUintLoop_digits (ds : List Char) (hd : ∀ c ∈ ds, c ∈ Fmt.decimalDigits) :
    ∀ n : Nat, n < 2 ^ 64 →
      parseUintLoop ds n =
        if ds.foldl (fun a c => a * 10 + (c.toNat - '0'.toNat)) n < 2 ^ 64
        then some (ds.foldl (fun a c => a * 10 + (c.toNat - '0'.toNat)) n) else none := by
  induction ds with
  | nil => intro n hn; simp only [parseUintLoop, List.foldl_nil, if_pos hn]
  | cons c ds ih =>
    intro n hn
    have hc := digit_range c (hd c (List.mem_cons_self _ _))
    have hds : ∀ c ∈ ds, c ∈ Fmt.decimalDigits := fun x hx => hd x (List.mem_cons_of_mem _ hx)
    have hge := foldl_ge ds (n * 10 + (c.toNat - '0'.toNat))
    simp only [parseUintLoop, hc.1, and_self, ↓reduceIte, List.foldl_cons, maxUint64]
    by_cases h1 : n ≥ (2 ^ 64 - 1) / 10 + 1
    · rw [if_pos h1, if_neg (by omega)]
    · rw [if_neg h1]
      by_cases h2 : n * 10 + (c.toNat - '0'.toNat) < 2 ^ 64
      · have e1 : n * 10 % 2 ^ 64 = n * 10 := Nat.mod_eq_of_lt (by omega)
        have e2 : (n * 10 + (c.toNat - '0'.toNat)) % 2 ^ 64 = n * 10 + (c.toNat - '0'.toNat) :=
          Nat.mod_eq_of_lt h2
        rw [e1, e2, if_neg (by omega)]
        exact ih hds _ h2
      · have e1 : n * 10 % 2 ^ 64 = n * 10 := Nat.mod_eq_of_lt (by omega)
        rw [e1, if_pos (by omega), if_neg (by omega)]

/-- On a non-empty string of digits `ParseUint` returns the value, unless it exceeds 64
bits. -/
theorem ParseUint_digits (ds : List Char) (hd : IsDigits ds) :
    ParseUint ds = if decimalValue ds < 2 ^ 64 then some (decimalValue ds) else none := by
  unfold ParseUint
  rw [if_neg hd.1]
  exact parseUintLoop_digits ds hd.2 0 (by decide)

end Strconv

namespace Fmt
open Grammar

theorem digitChar_spec : ∀ d : Fin 10,
    digitChar d.val ∈ decimalDigits ∧ (digitChar d.val).toNat - '0'.toNat = d.val := by
  decide

theorem digit_not_space : ∀ c ∈ decimalDigits, isSpace c = false := by decide

theorem decimalValue_append (a : List Char) (c : Char) :
    decimalValue (a ++ [c]) = decimalValue a * 10 + (c.toNat - '0'.toNat) := by
  simp [decimalValue, List.foldl_append]

theorem formatUint_isDigits (n : Nat) : IsDigits (formatUint n) := by
  induction n using Nat.strong_induction_on with
  | _ n ih =>
    rw [formatUint]
    by_cases h : n ≥ 10
    · rw [if_pos h]
      have h1 := ih (n / 10) (by omega)
      refine ⟨by simp, ?_⟩
      intro c hc
      rcases List.mem_append.mp hc with hc | hc
      · exact h1.2 c hc
      · rw [List.mem_singleton] at hc
        subst hc
        exact (digitChar_spec ⟨n % 10, Nat.mod_lt _ (by decide)⟩).1
    · rw [if_neg h]
      refine ⟨by simp, ?_⟩
      intro c hc
      rw [List.mem_singleton] at hc
      subst hc
      exact (digitChar_spec ⟨n, by omega⟩).1

theorem decimalValue_formatUint (n : Nat) : decimalValue (formatUint n) = n := by
  induction n using Nat.strong_induction_on with
  | _ n ih =>
    rw [formatUint]
    by_cases h : n ≥ 10
    · have h2 : (digitChar (n % 10)).toNat - '0'.toNat = n % 10 :=
        (digitChar_spec ⟨n % 10, Nat.mod_lt _ (by decide)⟩).2
      rw [if_pos h, decimalValue_append, ih (n / 10) (by omega), h2]
      omega
    · rw [if_neg h]
      have h2 : (digitChar n).toNat - '0'.toNat = n := (digitChar_spec ⟨n, by omega⟩).2
      simp only [decimalValue, List.foldl_cons, List.foldl_nil]
      omega

theorem SkipSpace_blanks (ws rest : List Char) (hws : ∀ c ∈ ws, Blank c) :
    SkipSpace (ws ++ rest) = SkipSpace rest := by
  induction ws with
  | nil => rfl
  | cons r ws ih =>
    have hr := hws r (List.mem_cons_self _ _)
    have ih2 := ih (fun c hc => hws c (List.mem_cons_of_mem _ hc))
    simp only [List.cons_append, SkipSpace, hr.1, hr.2, Bool.not_true]
    simp [ih2]

theorem SkipSpace_not_space (c : Char) (rest : List Char) (hc : isSpace c = false) :
    SkipSpace (c :: rest) = some (c :: rest) := by
  have h1 : c ≠ '\r' := by
    intro h; subst h; revert hc; decide
  have h2 : c ≠ '\n' := by
    intro h; subst h; revert hc; decide
  simp [SkipSpace, h1, h2, hc]

theorem SkipSpace_sound : ∀ (s s1 : List Char), SkipSpace s = some s1 →
    ∃ ws, s = ws ++ s1 ∧ (∀ c ∈ ws, Blank c) ∧ ∀ c ∈ s1.head?, isSpace c = false := by
  intro s
  induction s with
  | nil =>
    intro s1 h
    simp only [SkipSpace, Option.some.injEq] at h
    subst h
    exact ⟨[], rfl, by simp, by simp⟩
  | cons r rest ih =>
    intro s1 h
    by_cases hn : r = '\n'
    · subst hn
      simp [SkipSpace] at h
    · by_cases hsp : isSpace r = true
      · have h3 : SkipSpace (r :: rest) = SkipSpace rest := by
          simp only [SkipSpace, hn, hsp, Bool.not_true]
          simp
        rw [h3] at h
        obtain ⟨ws, e, hb, hh⟩ := ih s1 h
        refine ⟨r :: ws, by rw [e]; rfl, ?_, hh⟩
        intro c hc
        rcases List.mem_cons.mp hc with hc | hc
        · subst hc; exact ⟨hsp, hn⟩
        · exact hb c hc
      · have hsp2 : isSpace r = false := by simpa using hsp
        rw [SkipSpace_not_space r rest hsp2] at h
        simp only [Option.some.injEq] at h
        subst h
        exact ⟨[], rfl, by simp, by simpa using hsp2⟩

theorem SkipSpace_idem (s s1 : List Char) (h : SkipSpace s = some s1) :
    SkipSpace s1 = some s1 := by
  obtain ⟨_, _, _, hh⟩ := SkipSpace_sound s s1 h
  cases s1 with
  | nil => rfl
  | cons c r => exact SkipSpace_not_space c r (hh c (by simp))

theorem acceptLoop_append (ok ds rest : List Char) (hds : ∀ c ∈ ds, c ∈ ok)
    (hrest : ∀ c ∈ rest.head?, c ∉ ok) : acceptLoop ok (ds ++ rest) = (ds, rest) := by
  induction ds with
  | nil =>
    cases rest with
    | nil => rfl
    | cons c r =>
      have := hrest c (by simp)
      simp [acceptLoop, this]
  | cons d ds ih =>
    have hd := hds d (List.mem_cons_self _ _)
    have ih2 := ih (fun c hc => hds c (List.mem_cons_of_mem _ hc))
    simp [acceptLoop, hd, ih2]

theorem acceptLoop_sound (ok : List Char) : ∀ s : List Char,
    s = (acceptLoop ok s).1 ++ (acceptLoop ok s).2 ∧ (∀ c ∈ (acceptLoop ok s).1, c ∈ ok) ∧
      ∀ c ∈ (acceptLoop ok s).2.head?, c ∉ ok := by
  intro s
  induction s with
  | nil => simp [acceptLoop]
  | cons r rest ih =>
    by_cases h : r ∈ ok
    · obtain ⟨e, h1, h2⟩ := ih
      simp only [acceptLoop, if_pos h, List.cons_append]
      refine ⟨by rw [← e], ?_, h2⟩
      intro c hc
      rcases List.mem_cons.mp hc with hc | hc
      · subst hc; exact h
      · exact h1 c hc
    · simp [acceptLoop, h]

/-- The method `scanNumber` takes exactly the longest non-empty run of digits at the
start of the input. -/
theorem scanNumber_iff (s tok rest : List Char) :
    scanNumber decimalDigits s = some (tok, rest) ↔
      s = tok ++ rest ∧ IsDigits tok ∧ NoDigitAhead rest := by
  constructor
  · intro h
    cases s with
    | nil => simp [scanNumber] at h
    | cons r t =>
      by_cases hr : r ∈ decimalDigits
      · simp only [scanNumber, if_pos hr, Option.some.injEq, Prod.mk.injEq] at h
        obtain ⟨e, h1, h2⟩ := acceptLoop_sound decimalDigits t
        obtain ⟨ht, hrest⟩ := h
        subst ht
        rw [hrest] at e h2
        refine ⟨by rw [List.cons_append, ← e], ⟨by simp, ?_⟩, h2⟩
        intro c hc
        rcases List.mem_cons.mp hc with hc | hc
        · subst hc; exact hr
        · exact h1 c hc
      · simp [scanNumber, hr] at h
  · rintro ⟨e, ⟨hne, hd⟩, hrest⟩
    subst e
    cases tok with
    | nil => exact absurd rfl hne
    | cons r t =>
      have hr := hd r (List.mem_cons_self _ _)
      have := acceptLoop_append decimalDigits t rest
        (fun c hc => hd c (List.mem_cons_of_mem _ hc)) hrest
      simp [scanNumber, hr, this]


theorem overflow_check32 (i : Nat) :
    ((i <<< (64 - 32)) % 2 ^ 64) >>> (64 - 32) = i ↔ i < 2 ^ 32 := by
  simp only [Nat.shiftLeft_eq, Nat.shiftRight_eq_div_pow]
  omega

theorem overflow_check8 (i : Nat) :
    ((i <<< (64 - 8)) % 2 ^ 64) >>> (64 - 8) = i ↔ i < 2 ^ 8 := by
  simp only [Nat.shiftLeft_eq, Nat.shiftRight_eq_div_pow]
  omega

theorem scanUint_of_text (bits bound : Nat)
    (hcheck : ∀ i, ((i <<< (64 - bits)) % 2 ^ 64) >>> (64 - bits) = i ↔ i < bound)
    (hbound : bound ≤ 2 ^ 64) (ds rest : List Char) (hd : IsDigits ds)
    (hrest : NoDigitAhead rest) (hv : decimalValue ds < bound) :
    SkipSpace (ds ++ rest) = some (ds ++ rest) ∧
      scanUint bits (ds ++ rest) = some (decimalValue ds, rest) := by
  have hsk : SkipSpace (ds ++ rest) = some (ds ++ rest) := by
    cases ds with
    | nil => exact absurd rfl hd.1
    | cons r t =>
      exact SkipSpace_not_space r _ (digit_not_space r (hd.2 r (List.mem_cons_self _ _)))
  refine ⟨hsk, ?_⟩
  have hsn := (scanNumber_iff (ds ++ rest) ds rest).mpr ⟨rfl, hd, hrest⟩
  have hp := Strconv.ParseUint_digits ds hd
  rw [if_pos (by omega)] at hp
  simp only [scanUint, hsk, hsn, hp]
  rw [if_neg (by simpa using (hcheck _).mpr hv)]

/-- The verb `%d` with an unsigned destination succeeds exactly on an unsigned decimal
number in range, preceded by optional blanks. -/
theorem verbUint_iff (bits bound : Nat)
    (hcheck : ∀ i, ((i <<< (64 - bits)) % 2 ^ 64) >>> (64 - bits) = i ↔ i < bound)
    (hbound : bound ≤ 2 ^ 64) (s rest : List Char) (v : Nat) :
    verbUint bits s = some (v, rest) ↔ UintText bound v s rest := by
  constructor
  · intro h
    unfold verbUint at h
    cases h1 : SkipSpace s with
    | none => simp [h1] at h
    | some s1 =>
      have h2 := SkipSpace_idem s s1 h1
      simp only [h1, scanUint, h2] at h
      cases h3 : scanNumber decimalDigits s1 with
      | none => simp [h3] at h
      | some p =>
        obtain ⟨tok, r⟩ := p
        obtain ⟨e, hd, hrest⟩ := (scanNumber_iff s1 tok r).mp h3
        have hp := Strconv.ParseUint_digits tok hd
        simp only [h3] at h
        by_cases hlt : decimalValue tok < 2 ^ 64
        · rw [if_pos hlt] at hp
          simp only [hp] at h
          by_cases hc : ((decimalValue tok <<< (64 - bits)) % 2 ^ 64) >>> (64 - bits) =
              decimalValue tok
          · rw [if_neg (by simpa using hc)] at h
            simp only [Option.some.injEq, Prod.mk.injEq] at h
            obtain ⟨ws, e1, hws, _⟩ := SkipSpace_sound s s1 h1
            refine ⟨ws, tok, ?_, hws, hd, ?_, h.1, ?_⟩
            · rw [e1, e, h.2, List.append_assoc]
            · rw [← h.2]; exact hrest
            · rw [← h.1]; exact (hcheck _).mp hc
          · rw [if_pos (by simpa using hc)] at h
            simp at h
        · rw [if_neg hlt] at hp
          simp [hp] at h
  · rintro ⟨ws, ds, e, hws, hd, hrest, hv, hlt⟩
    subst e
    subst hv
    obtain ⟨hsk, hsc⟩ := scanUint_of_text bits bound hcheck hbound ds rest hd hrest hlt
    unfold verbUint
    rw [List.append_assoc, SkipSpace_blanks ws _ hws, hsk]
    exact hsc

theorem verbUint32_iff (s rest : List Char) (v : Nat) :
    verbUint 32 s = some (v, rest) ↔ UintText (2 ^ 32) v s rest :=
  verbUint_iff 32 (2 ^ 32) overflow_check32 (by decide) s rest v

theorem verbUint8_iff (s rest : List Char) (v : Nat) :
    verbUint 8 s = some (v, rest) ↔ UintText (2 ^ 8) v s rest :=
  verbUint_iff 8 (2 ^ 8) overflow_check8 (by decide) s rest v


theorem digit_not_sign : ∀ c ∈ decimalDigits, c ≠ '+' ∧ c ≠ '-' ∧ c ∉ sign := by decide

theorem sign_not_space : ∀ c ∈ sign, isSpace c = false := by decide

theorem ParseInt_text (sgn ds : List Char) (hs : sgn = [] ∨ sgn = ['+'] ∨ sgn = ['-'])
    (hd : IsDigits ds) (v : Int) :
    Strconv.ParseInt (sgn ++ ds) = some v ↔
      v = (if sgn = ['-'] then -(decimalValue ds : Int) else (decimalValue ds : Int)) ∧
        -(2 ^ 63) ≤ v ∧ v < 2 ^ 63 := by
  have hp := Strconv.ParseUint_digits ds hd
  obtain ⟨c, t, hct⟩ : ∃ c t, ds = c :: t := by
    cases ds with
    | nil => exact absurd rfl hd.1
    | cons c t => exact ⟨c, t, rfl⟩
  have hc := digit_not_sign c (hd.2 c (by rw [hct]; exact List.mem_cons_self _ _))
  rcases hs with hs | hs | hs
  · subst hs
    have e : Strconv.ParseInt ([] ++ ds) =
        match Strconv.ParseUint ds with
        | none => none
        | some un => if un ≥ 2 ^ 63 then none else some (un : Int) := by
      rw [hct]
      simp [Strconv.ParseInt, hc.1, hc.2.1]
    rw [e, hp]
    by_cases hlt : decimalValue ds < 2 ^ 64
    · rw [if_pos hlt]
      simp only [List.nil_eq, reduceCtorEq, ↓reduceIte]
      by_cases h63 : decimalValue ds ≥ 2 ^ 63
      · rw [if_pos h63]
        constructor
        · intro h; cases h
        · rintro ⟨h1, _, h3⟩; omega
      · rw [if_neg h63]
        constructor
        · intro h
          simp only [Option.some.injEq] at h
          omega
        · rintro ⟨h1, _, _⟩
          rw [h1]
    · rw [if_neg hlt]
      simp only [List.nil_eq, reduceCtorEq, ↓reduceIte]
      constructor
      · intro h; cases h
      · rintro ⟨h1, _, h3⟩; omega
  · subst hs
    have e : Strconv.ParseInt (['+'] ++ ds) =
        match Strconv.ParseUint ds with
        | none => none
        | some un => if un ≥ 2 ^ 63 then none else some (un : Int) := by
      simp [Strconv.ParseInt]
    rw [e, hp]
    have hne : ¬ (['+'] = ['-']) := by decide
    rw [if_neg hne]
    by_cases hlt : decimalValue ds < 2 ^ 64
    · rw [if_pos hlt]
      simp only []
      by_cases h63 : decimalValue ds ≥ 2 ^ 63
      · rw [if_pos h63]
        constructor
        · intro h; cases h
        · rintro ⟨h1, _, h3⟩; omega
      · rw [if_neg h63]
        constructor
        · intro h
          simp only [Option.some.injEq] at h
          omega
        · rintro ⟨h1, _, _⟩
          rw [h1]
    · rw [if_neg hlt]
      simp only []
      constructor
      · intro h; cases h
      · rintro ⟨h1, _, h3⟩; omega
  · subst hs
    have e : Strconv.ParseInt (['-'] ++ ds) =
        match Strconv.ParseUint ds with
        | none => none
        | some un => if un > 2 ^ 63 then none else some (-(un : Int)) := by
      simp [Strconv.ParseInt]
    rw [e, hp]
    rw [if_pos rfl]
    by_cases hlt : decimalValue ds < 2 ^ 64
    · rw [if_pos hlt]
      simp only []
      by_cases h63 : decimalValue ds > 2 ^ 63
      · rw [if_pos h63]
        constructor
        · intro h; cases h
        · rintro ⟨h1, h2, _⟩; omega
      · rw [if_neg h63]
        constructor
        · intro h
          simp only [Option.some.injEq] at h
          omega
        · rintro ⟨h1, _, _⟩
          rw [h1]
    · rw [if_neg hlt]
      simp only []
      constructor
      · intro h; cases h
      · rintro ⟨h1, h2, _⟩; omega


theorem mem_sign (r : Char) : r ∈ sign ↔ r = '+' ∨ r = '-' := by
  simp [sign]

/-- The verb `%d` with an `int` destination succeeds exactly on a decimal number with an
optional sign that fits 64 bits, preceded by optional blanks. -/
theorem verbInt_iff (s rest : List Char) (v : Int) :
    verbInt s = some (v, rest) ↔ IntText v s rest := by
  constructor
  · intro h
    unfold verbInt at h
    cases h1 : SkipSpace s with
    | none => simp [h1] at h
    | some s1 =>
      have h2 := SkipSpace_idem s s1 h1
      obtain ⟨ws, e1, hws, _⟩ := SkipSpace_sound s s1 h1
      simp only [h1, scanInt, h2] at h
      cases s1 with
      | nil => simp at h
      | cons r t =>
        simp only [List.nil_append] at h
        by_cases hr : r ∈ sign
        · simp only [if_pos hr] at h
          cases h3 : scanNumber decimalDigits t with
          | none => simp [h3] at h
          | some p =>
            obtain ⟨tok, r1⟩ := p
            obtain ⟨e, hd, hrest⟩ := (scanNumber_iff t tok r1).mp h3
            simp only [h3, List.cons_append, List.nil_append] at h
            cases h4 : Strconv.ParseInt (r :: tok) with
            | none => simp [h4] at h
            | some i =>
              simp only [h4, Option.some.injEq, Prod.mk.injEq] at h
              have hs : [r] = [] ∨ [r] = ['+'] ∨ [r] = ['-'] := by
                rcases (mem_sign r).mp hr with hr1 | hr1 <;> simp [hr1]
              have h5 := (ParseInt_text [r] tok hs hd i).mp h4
              rw [h.1] at h5
              refine ⟨ws, [r], tok, ?_, hws, hs, hd, ?_, h5⟩
              · rw [e1, e, h.2]; simp
              · rw [← h.2]; exact hrest
        · simp only [if_neg hr] at h
          cases h3 : scanNumber decimalDigits (r :: t) with
          | none => simp [h3] at h
          | some p =>
            obtain ⟨tok, r1⟩ := p
            obtain ⟨e, hd, hrest⟩ := (scanNumber_iff (r :: t) tok r1).mp h3
            simp only [h3, List.nil_append] at h
            cases h4 : Strconv.ParseInt tok with
            | none => simp [h4] at h
            | some i =>
              simp only [h4, Option.some.injEq, Prod.mk.injEq] at h
              have h5 := (ParseInt_text [] tok (Or.inl rfl) hd i).mp (by simpa using h4)
              rw [h.1] at h5
              refine ⟨ws, [], tok, ?_, hws, Or.inl rfl, hd, ?_, h5⟩
              · rw [e1, e, h.2]; simp
              · rw [← h.2]; exact hrest
  · rintro ⟨ws, sgn, ds, e, hws, hs, hd, hrest, hv⟩
    subst e
    have hsn := (scanNumber_iff (ds ++ rest) ds rest).mpr ⟨rfl, hd, hrest⟩
    have hp := (ParseInt_text sgn ds hs hd v).mpr hv
    obtain ⟨c, t, hct⟩ : ∃ c t, ds = c :: t := by
      cases ds with
      | nil => exact absurd rfl hd.1
      | cons c t => exact ⟨c, t, rfl⟩
    have hc := hd.2 c (by rw [hct]; exact List.mem_cons_self _ _)
    unfold verbInt
    rw [List.append_assoc, List.append_assoc, SkipSpace_blanks ws _ hws]
    rcases hs with hs | hs | hs
    · subst hs
      rw [hct] at hsn hp ⊢
      have hsk := SkipSpace_not_space c (t ++ rest) (digit_not_space c hc)
      simp only [List.nil_append, List.cons_append] at hsn hp ⊢
      simp only [hsk, scanInt, if_neg (digit_not_sign c hc).2.2, hsn, List.nil_append, hp]
    · subst hs
      have hsk := SkipSpace_not_space '+' (ds ++ rest) (by decide)
      have hm : '+' ∈ sign := by decide
      simp only [List.cons_append, List.nil_append] at hp ⊢
      simp only [hsk, scanInt, if_pos hm, hsn, List.cons_append, List.nil_append, hp]
    · subst hs
      have hsk := SkipSpace_not_space '-' (ds ++ rest) (by decide)
      have hm : '-' ∈ sign := by decide
      simp only [List.cons_append, List.nil_append] at hp ⊢
      simp only [hsk, scanInt, if_pos hm, hsn, List.cons_append, List.nil_append, hp]

theorem literal_iff (c : Char) (s t : List Char) : literal c s = some t ↔ s = c :: t := by
  cases s with
  | nil => simp [literal]
  | cons r rest =>
    by_cases h : c = r
    · subst h; simp [literal]
    · simp [literal, h]
      intro h2; exact fun _ => h h2.symm

/-- The call `Sscanf(str, "v=%d", &version)` succeeds with `v` exactly on the version
fields of value `v`. -/
theorem SscanfVersion_iff (f : List Char) (v : Int) :
    SscanfVersion f = some v ↔ VersionField v f := by
  constructor
  · intro h
    unfold SscanfVersion at h
    cases h1 : literal 'v' f with
    | none => simp [h1] at h
    | some s1 =>
      simp only [h1] at h
      cases h2 : literal '=' s1 with
      | none => simp [h2] at h
      | some s2 =>
        simp only [h2] at h
        cases h3 : verbInt s2 with
        | none => simp [h3] at h
        | some p =>
          obtain ⟨i, rest⟩ := p
          simp only [h3, Option.some.injEq] at h
          subst h
          refine ⟨s2, rest, ?_, (verbInt_iff s2 rest i).mp h3⟩
          rw [(literal_iff _ _ _).mp h1, (literal_iff _ _ _).mp h2]
  · rintro ⟨t, rest, e, ht⟩
    subst e
    have h3 := (verbInt_iff t rest v).mpr ht
    simp [SscanfVersion, literal, h3]


/-- The call `Sscanf(str, "m=%d,t=%d,p=%d", ...)` succeeds with `(m, t, p)` exactly on the
parameter fields of these values. -/
theorem SscanfParams_iff (f : List Char) (m t p : Nat) :
    SscanfParams f = some (m, t, p) ↔ ParamsField m t p f := by
  constructor
  · intro h
    unfold SscanfParams at h
    split at h
    · cases h
    rename_i s1 h1
    split at h
    · cases h
    rename_i s2 h2
    split at h
    · cases h
    rename_i m1 s3 h3
    split at h
    · cases h
    rename_i s4 h4
    split at h
    · cases h
    rename_i s5 h5
    split at h
    · cases h
    rename_i s6 h6
    split at h
    · cases h
    rename_i t1 s7 h7
    split at h
    · cases h
    rename_i s8 h8
    split at h
    · cases h
    rename_i s9 h9
    split at h
    · cases h
    rename_i s10 h10
    split at h
    · cases h
    rename_i p1 s11 h11
    simp only [Option.some.injEq, Prod.mk.injEq] at h
    obtain ⟨hm, ht, hp⟩ := h
    subst hm ht hp
    rw [literal_iff] at h1 h2 h4 h5 h6 h8 h9 h10
    rw [verbUint32_iff] at h3 h7
    rw [verbUint8_iff] at h11
    subst h4 h5 h6 h8 h9 h10
    exact ⟨s2, s6, s10, s11, by rw [h1, h2], h3, h7, h11⟩
  · rintro ⟨s1, s2, s3, rest, e, h1, h2, h3⟩
    subst e
    rw [← verbUint32_iff] at h1 h2
    rw [← verbUint8_iff] at h3
    simp [SscanfParams, literal, h1, h2, h3]

end Fmt
end Gopkg

namespace Gopkg
namespace Base64
open Grammar

theorem decodeMap_isSome (alphabet : List Char) (c : Char) :
    (∃ out, decodeMap alphabet c = some out) ↔ c ∈ alphabet := by
  unfold decodeMap
  by_cases h : c ∈ alphabet
  · simp [List.indexOf_lt_length.mpr h, h]
  · have : ¬ List.indexOf c alphabet < alphabet.length := fun h2 =>
      h (List.indexOf_lt_length.mp h2)
    simp [this, h]

theorem decodeLoop_isSome (f : List Char) : ∀ dbuf : List Nat, dbuf.length ≤ 3 →
    ((∃ bs, decodeLoop encodeStd f dbuf = some bs) ↔
      (∀ c ∈ f, c ∈ encodeStd ∨ c = '\n' ∨ c = '\r') ∧
        (dbuf.length + (f.filter (fun c => decide (c ∈ encodeStd))).length) % 4 ≠ 1) := by
  induction f with
  | nil =>
    intro dbuf hlen
    simp only [decodeLoop, List.not_mem_nil, false_implies, implies_true, List.filter_nil,
      List.length_nil, Nat.add_zero, true_and]
    by_cases h0 : dbuf.length = 0
    · simp [h0]
    · by_cases h1 : dbuf.length = 1
      · simp [h1]
      · simp only [h0, h1, ↓reduceIte, Option.some.injEq, exists_eq', true_iff]
        omega
  | cons c rest ih =>
    intro dbuf hlen
    by_cases hc : c ∈ encodeStd
    · obtain ⟨out, hout⟩ := (decodeMap_isSome encodeStd c).mpr hc
      simp only [decodeLoop, hout, List.mem_cons, forall_eq_or_imp, hc, true_or, true_and,
        List.filter_cons, decide_True, ↓reduceIte, List.length_cons]
      by_cases h3 : dbuf.length = 3
      · rw [if_pos h3]
        have := ih [] (by simp)
        simp only [List.length_nil, Nat.zero_add] at this
        rw [← (show (dbuf.length + ((rest.filter (fun c => decide (c ∈ encodeStd))).length + 1))
          % 4 ≠ 1 ↔ (rest.filter (fun c => decide (c ∈ encodeStd))).length % 4 ≠ 1 by omega),
          ← this] at *
        cases decodeLoop encodeStd rest [] <;> simp
      · rw [if_neg h3]
        have := ih (dbuf ++ [out]) (by simp; omega)
        rw [this]
        simp only [List.length_append, List.length_cons, List.length_nil]
        constructor
        · rintro ⟨h1, h2⟩; exact ⟨h1, by omega⟩
        · rintro ⟨h1, h2⟩; exact ⟨h1, by omega⟩
    · have hnone : decodeMap encodeStd c = none := by
        cases h : decodeMap encodeStd c with
        | none => rfl
        | some out => exact absurd ((decodeMap_isSome encodeStd c).mp ⟨out, h⟩) hc
      simp only [decodeLoop, hnone, List.mem_cons, forall_eq_or_imp, hc, false_or,
        List.filter_cons, decide_False, Bool.false_eq_true, ↓reduceIte]
      by_cases hnl : c = '\n' ∨ c = '\r'
      · rw [if_pos hnl]
        rw [ih dbuf hlen]
        simp [hnl]
      · rw [if_neg hnl]
        simp [hnl]

/-- The decoder accepts exactly the strings of alphabet characters, with carriage returns
and line feeds anywhere, whose number of alphabet characters is not 1 modulo 4. -/
theorem DecodeString_isSome (f : List Char) :
    (∃ bs, DecodeString encodeStd f = some bs) ↔ Base64Field f := by
  have := decodeLoop_isSome f [] (by simp)
  simpa [DecodeString, Base64Field] using this

theorem encodeChar_mem_std : ∀ i : Fin 64, encodeChar encodeStd i.val ∈ encodeStd := by decide

theorem encodeChar_mem_url : ∀ i : Fin 64, encodeChar encodeURL i.val ∈ encodeURL := by decide

/-- The encoder writes characters of its alphabet only, and `ceil(4n/3)` of them. -/
theorem EncodeToString_spec (alphabet : List Char)
    (halpha : ∀ i : Fin 64, encodeChar alphabet i.val ∈ alphabet) :
    ∀ bs : List Byte, (∀ c ∈ EncodeToString alphabet bs, c ∈ alphabet) ∧
      (EncodeToString alphabet bs).length = (4 * bs.length + 2) / 3
  | b0 :: b1 :: b2 :: rest => by
    have ih := EncodeToString_spec alphabet halpha rest
    have hm : ∀ x : Nat, encodeChar alphabet (x % 64) ∈ alphabet := fun x =>
      halpha ⟨x % 64, Nat.mod_lt _ (by decide)⟩
    simp only [EncodeToString, and63, List.mem_cons, forall_eq_or_imp, hm, true_and,
      List.length_cons, ih.2]
    exact ⟨ih.1, by omega⟩
  | [b0, b1] => by
    have hm : ∀ x : Nat, encodeChar alphabet (x % 64) ∈ alphabet := fun x =>
      halpha ⟨x % 64, Nat.mod_lt _ (by decide)⟩
    simp [EncodeToString, and63, hm]
  | [b0] => by
    have hm : ∀ x : Nat, encodeChar alphabet (x % 64) ∈ alphabet := fun x =>
      halpha ⟨x % 64, Nat.mod_lt _ (by decide)⟩
    simp [EncodeToString, and63, hm]
  | [] => by simp [EncodeToString]

end Base64
end Gopkg

namespace Gopkg
namespace Strings

theorem Split_ne_nil (sep : Char) (s : List Char) : Split sep s ≠ [] := by
  cases s with
  | nil => simp [Split]
  | cons c rest =>
    by_cases h : c = sep
    · simp [Split, h]
    · simp only [Split, if_neg h]
      cases Split sep rest <;> simp

theorem Split_no_sep (sep : Char) (a : List Char) (h : sep ∉ a) : Split sep a = [a] := by
  induction a with
  | nil => rfl
  | cons c a ih =>
    have hc : c ≠ sep := fun e => h (by rw [e]; exact List.mem_cons_self _ _)
    have := ih (fun hm => h (List.mem_cons_of_mem _ hm))
    simp [Split, hc, this]

theorem Split_append (sep : Char) (a b : List Char) (h : sep ∉ a) :
    Split sep (a ++ sep :: b) = a :: Split sep b := by
  induction a with
  | nil => simp [Split]
  | cons c a ih =>
    have hc : c ≠ sep := fun e => h (by rw [e]; exact List.mem_cons_self _ _)
    have := ih (fun hm => h (List.mem_cons_of_mem _ hm))
    simp [Split, hc, this]

theorem Split_decomp (sep : Char) (s : List Char) :
    ∃ p, sep ∉ p ∧ ((s = p ∧ Split sep s = [p]) ∨
      ∃ t, s = p ++ sep :: t ∧ Split sep s = p :: Split sep t) := by
  induction s with
  | nil => exact ⟨[], by simp, Or.inl ⟨rfl, rfl⟩⟩
  | cons c rest ih =>
    by_cases hc : c = sep
    · subst hc
      exact ⟨[], by simp, Or.inr ⟨rest, rfl, by simp [Split]⟩⟩
    · obtain ⟨p, hp, h⟩ := ih
      have hcp : sep ∉ c :: p := by
        intro hm
        rcases List.mem_cons.mp hm with hm | hm
        · exact hc hm.symm
        · exact hp hm
      refine ⟨c :: p, hcp, ?_⟩
      rcases h with ⟨e, _⟩ | ⟨t, e, _⟩
      · subst e
        exact Or.inl ⟨rfl, Split_no_sep sep _ hcp⟩
      · subst e
        exact Or.inr ⟨t, rfl, Split_append sep (c :: p) t hcp⟩

theorem Split_singleton (sep : Char) (s p : List Char) :
    Split sep s = [p] ↔ s = p ∧ sep ∉ p := by
  constructor
  · intro h
    obtain ⟨q, hq, h1 | ⟨t, _, h1⟩⟩ := Split_decomp sep s
    · rw [h1.2] at h
      simp only [List.cons.injEq, and_true] at h
      subst h
      exact ⟨h1.1, hq⟩
    · rw [h1] at h
      simp only [List.cons.injEq] at h
      exact absurd h.2 (Split_ne_nil sep t)
  · rintro ⟨e, h⟩
    subst e
    exact Split_no_sep sep s h

theorem Split_cons_cons (sep : Char) (s p q : List Char) (qs : List (List Char)) :
    Split sep s = p :: q :: qs ↔
      sep ∉ p ∧ ∃ t, s = p ++ sep :: t ∧ Split sep t = q :: qs := by
  constructor
  · intro h
    obtain ⟨r, hr, h1 | ⟨t, e, h1⟩⟩ := Split_decomp sep s
    · rw [h1.2] at h
      simp at h
    · rw [h1] at h
      simp only [List.cons.injEq] at h
      obtain ⟨h2, h3⟩ := h
      subst h2
      exact ⟨hr, t, e, h3⟩
  · rintro ⟨hp, t, e, h⟩
    subst e
    rw [Split_append sep p t hp, h]

/-- A string splits into six given fields exactly when it is these fields joined by the
delimiter and none of them contains the delimiter. -/
theorem Split_six (e f0 f1 f2 f3 f4 f5 : List Char) :
    Split '$' e = [f0, f1, f2, f3, f4, f5] ↔
      e = Grammar.joinFields f0 f1 f2 f3 f4 f5 ∧
        '$' ∉ f0 ∧ '$' ∉ f1 ∧ '$' ∉ f2 ∧ '$' ∉ f3 ∧ '$' ∉ f4 ∧ '$' ∉ f5 := by
  simp only [Split_cons_cons, Split_singleton, Grammar.joinFields]
  constructor
  · rintro ⟨h0, t0, e0, h1, t1, e1, h2, t2, e2, h3, t3, e3, h4, t4, e4, e5, h5⟩
    subst e5 e4 e3 e2 e1 e0
    exact ⟨rfl, h0, h1, h2, h3, h4, h5⟩
  · rintro ⟨e0, h0, h1, h2, h3, h4, h5⟩
    exact ⟨h0, _, e0, h1, _, rfl, h2, _, rfl, h3, _, rfl, h4, _, rfl, rfl, h5⟩

end Strings

namespace Password
open Grammar

/-- What `decodeHash` accepts, in terms of the calls it makes on the six fields. -/
theorem decodeHash_ok_iff (hasher : Argon2Hasher) (e : List Char) (params : argon2Params)
    (salt hash : List Byte) :
    hasher.decodeHash e = .ok (params, salt, hash) ↔
      ∃ f0 f2 f3 f4 f5, Strings.Split '$' e = [f0, tag, f2, f3, f4, f5] ∧
        Fmt.SscanfVersion f2 = some Version ∧
        Fmt.SscanfParams f3 = some (params.memory, params.iterations, params.parallelism) ∧
        Base64.DecodeString Base64.encodeStd f4 = some salt ∧
        Base64.DecodeString Base64.encodeStd f5 = some hash ∧
        params.keyLength = hash.length % 2 ^ 32 := by
  constructor
  · intro h
    unfold Argon2Hasher.decodeHash at h
    split at h
    · rename_i f0 p1 p2 p3 p4 p5 hsplit
      split at h
      · cases h
      rename_i htag
      split at h
      · cases h
      rename_i version hv
      split at h
      · cases h
      rename_i hver
      split at h
      · cases h
      rename_i memory iterations parallelism hp
      split at h
      · cases h
      rename_i salt1 hs
      split at h
      · cases h
      rename_i hash1 hh
      simp only [Except.ok.injEq, Prod.mk.injEq] at h
      obtain ⟨h1, h2, h3⟩ := h
      subst h1 h2 h3
      simp only [ne_eq, Decidable.not_not] at htag hver
      subst htag hver
      exact ⟨f0, p2, p3, p4, p5, hsplit, hv, hp, hs, hh, rfl⟩
    · cases h
  · rintro ⟨f0, f2, f3, f4, f5, hsplit, hv, hp, hs, hh, hk⟩
    obtain ⟨m, t, p, k⟩ := params
    simp only at hp hk
    subst hk
    simp [Argon2Hasher.decodeHash, hsplit, tag, hv, hp, hs, hh]

end Password
end Gopkg

namespace Gopkg
namespace Subtle

theorem xorOr_self (x : List Byte) : ∀ v : Nat, xorOr x x v = v := by
  induction x with
  | nil => intro v; rfl
  | cons b x ih => intro v; simp [xorOr, ih]

theorem ConstantTimeCompare_self (x : List Byte) : ConstantTimeCompare x x = 1 := by
  simp [ConstantTimeCompare, xorOr_self]

end Subtle

namespace Password
open Grammar

theorem formatInt_Version : Fmt.formatInt Version = ['1', '9'] := by
  simp [Fmt.formatInt, Version, Fmt.formatUint, Fmt.digitChar]

theorem dollar_not_digit : ∀ c ∈ Fmt.decimalDigits, c ≠ '$' ∧ c ≠ ',' := by decide

theorem dollar_not_std : '$' ∉ Base64.encodeStd := by decide

theorem dollar_not_mem_formatUint (n : Nat) : '$' ∉ Fmt.formatUint n := fun h =>
  (dollar_not_digit _ ((Fmt.formatUint_isDigits n).2 _ h)).1 rfl

theorem dollar_not_mem_encode (bs : List Byte) :
    '$' ∉ Base64.EncodeToString Base64.encodeStd bs := fun h =>
  dollar_not_std ((Base64.EncodeToString_spec _ Base64.encodeChar_mem_std bs).1 _ h)

theorem UintText_formatUint (bound n : Nat) (rest : List Char) (hn : n < bound)
    (hrest : NoDigitAhead rest) : UintText bound n (Fmt.formatUint n ++ rest) rest :=
  ⟨[], Fmt.formatUint n, rfl, by simp, Fmt.formatUint_isDigits n, hrest,
    Fmt.decimalValue_formatUint n, hn⟩

theorem ParamsField_format (m t p : Nat) (hm : m < 2 ^ 32) (ht : t < 2 ^ 32) (hp : p < 2 ^ 8) :
    ParamsField m t p
      (['m', '='] ++ Fmt.formatUint m ++ [',', 't', '='] ++ Fmt.formatUint t ++
        [',', 'p', '='] ++ Fmt.formatUint p) := by
  refine ⟨Fmt.formatUint m ++ (',' :: 't' :: '=' :: (Fmt.formatUint t ++
      (',' :: 'p' :: '=' :: (Fmt.formatUint p ++ [])))),
    Fmt.formatUint t ++ (',' :: 'p' :: '=' :: (Fmt.formatUint p ++ [])),
    Fmt.formatUint p ++ [], [], by simp, ?_, ?_, ?_⟩
  · exact UintText_formatUint _ m _ hm (by simp [NoDigitAhead, Fmt.decimalDigits])
  · exact UintText_formatUint _ t _ ht (by simp [NoDigitAhead, Fmt.decimalDigits])
  · exact UintText_formatUint _ p _ hp (by simp [NoDigitAhead])

theorem sprintfEncoded_eq_join (m t p : Nat) (salt hash : List Char) :
    sprintfEncoded Version m t p salt hash =
      joinFields [] tag ['v', '=', '1', '9']
        (['m', '='] ++ Fmt.formatUint m ++ [',', 't', '='] ++ Fmt.formatUint t ++
          [',', 'p', '='] ++ Fmt.formatUint p) salt hash := by
  simp [sprintfEncoded, joinFields, tag, formatInt_Version]

/-- The fields of the string that `Hash` renders, and the parameters scanned from its
parameter field. -/
theorem render_fields (memory iterations parallelism : Nat) (salt digest : List Byte)
    (hm : memory < 2 ^ 32) (ht : iterations < 2 ^ 32) (hp : parallelism < 2 ^ 8) :
    Strings.Split '$' (sprintfEncoded Version memory iterations parallelism
        (Base64.EncodeToString Base64.encodeStd salt)
        (Base64.EncodeToString Base64.encodeStd digest)) =
      [[], tag, ['v', '=', '1', '9'],
        ['m', '='] ++ Fmt.formatUint memory ++ [',', 't', '='] ++ Fmt.formatUint iterations ++
          [',', 'p', '='] ++ Fmt.formatUint parallelism,
        Base64.EncodeToString Base64.encodeStd salt,
        Base64.EncodeToString Base64.encodeStd digest] ∧
    Fmt.SscanfParams (['m', '='] ++ Fmt.formatUint memory ++ [',', 't', '='] ++
        Fmt.formatUint iterations ++ [',', 'p', '='] ++ Fmt.formatUint parallelism) =
      some (memory, iterations, parallelism) := by
  constructor
  · rw [sprintfEncoded_eq_join, Strings.Split_six]
    refine ⟨rfl, by simp, by decide, by decide, ?_, dollar_not_mem_encode salt,
      dollar_not_mem_encode digest⟩
    simp [dollar_not_mem_formatUint]
  · exact (Fmt.SscanfParams_iff _ _ _ _).mpr (ParamsField_format _ _ _ hm ht hp)

/-- C6: for every memory and iterations below 2^32, parallelism below 2^8, salt and
digest (of a length below 2^32, as a `uint32` key length gives), `decodeHash` applied to
the string that `Hash` renders from them succeeds and returns the same memory, iterations
and parallelism, a key length equal to the length of the digest, and the same salt and
digest bytes. -/
theorem decodeHash_sprintfEncoded (hasher : Argon2Hasher)
    (memory iterations parallelism : Nat)
    (salt digest : List Byte) (hm : memory < 2 ^ 32) (ht : iterations < 2 ^ 32)
    (hp : parallelism < 2 ^ 8) (hlen : digest.length < 2 ^ 32) :
    hasher.decodeHash (sprintfEncoded Version memory iterations parallelism
        (Base64.EncodeToString Base64.encodeStd salt)
        (Base64.EncodeToString Base64.encodeStd digest)) =
      .ok ({ memory := memory, iterations := iterations, parallelism := parallelism,
             keyLength := digest.length }, salt, digest) := by
  obtain ⟨hsplit, hparams⟩ := render_fields memory iterations parallelism salt digest hm ht hp
  have hversion : Fmt.SscanfVersion ['v', '=', '1', '9'] = some Version := by decide
  have hkey : digest.length = digest.length % 2 ^ 32 := (Nat.mod_eq_of_lt hlen).symm
  rw [decodeHash_ok_iff]
  exact ⟨[], ['v', '=', '1', '9'], _, _, _, hsplit, hversion, hparams,
    Base64.decodeString_encodeToString salt, Base64.decodeString_encodeToString digest, hkey⟩

theorem decodeHash_sprintfEncoded_witness :
    Example.hasher.decodeHash (sprintfEncoded Version 65536 3 2
        (Base64.EncodeToString Base64.encodeStd [1, 2, 3, 4])
        (Base64.EncodeToString Base64.encodeStd [250, 251, 252, 253, 254])) =
      .ok ({ memory := 65536, iterations := 3, parallelism := 2, keyLength := 5 },
        [1, 2, 3, 4], [250, 251, 252, 253, 254]) :=
  decodeHash_sprintfEncoded Example.hasher 65536 3 2 [1, 2, 3, 4] [250, 251, 252, 253, 254]
    (by decide) (by decide) (by decide) (by decide)

/-- C1: for every password, every configuration that is valid for the primitive
(iterations, parallelism and key length at least 1, the fields within their `uint32` and
`uint8` types) and every salt the random source supplies, `Hash` returns a string, and
`Verify` of the same password and that string returns `(true, nil)`; the Argon2id
primitive is a function `F` returning `keyLen` bytes. -/
theorem Verify_Hash (hasher : Argon2Hasher) (F : KeyFunction)
    (rand : Nat → Option (List Byte)) (c : Argon2Config)
    (password : List Char) (salt : List Byte)
    (hF : ∀ pw s t m p k, (F pw s t m p k).length = k)
    (hm : c.Memory < 2 ^ 32) (ht : c.Iterations < 2 ^ 32) (hp : c.Parallelism < 2 ^ 8)
    (hk : c.KeyLength < 2 ^ 32)
    (ht1 : 1 ≤ c.Iterations) (hp1 : 1 ≤ c.Parallelism) (hk1 : 1 ≤ c.KeyLength)
    (hsalt : rand c.SaltLength = some salt) :
    ∃ s, (NewArgon2 c).Hash F rand password = some (.ok s) ∧
      hasher.Verify F password s = some (true, none) := by
  have hid : IDKey F (Utf8.bytes password) salt c.Iterations c.Memory c.Parallelism
      c.KeyLength = some (F (Utf8.bytes password) salt c.Iterations c.Memory c.Parallelism
        c.KeyLength) := by
    simp only [IDKey]
    rw [if_neg (by omega), if_neg (by omega), if_neg (by omega)]
  have hH : (NewArgon2 c).Hash F rand password =
      some (.ok (sprintfEncoded Version c.Memory c.Iterations c.Parallelism
        (Base64.EncodeToString Base64.encodeStd salt)
        (Base64.EncodeToString Base64.encodeStd
          (F (Utf8.bytes password) salt c.Iterations c.Memory c.Parallelism c.KeyLength)))) := by
    simp only [Argon2Hasher.Hash, NewArgon2, hsalt, hid]
  refine ⟨_, hH, ?_⟩
  have hlen := hF (Utf8.bytes password) salt c.Iterations c.Memory c.Parallelism c.KeyLength
  obtain ⟨hsplit, hparams⟩ := render_fields c.Memory c.Iterations c.Parallelism salt
    (F (Utf8.bytes password) salt c.Iterations c.Memory c.Parallelism c.KeyLength) hm ht hp
  have hversion : Fmt.SscanfVersion ['v', '=', '1', '9'] = some Version := by decide
  have hdec : hasher.decodeHash (sprintfEncoded Version c.Memory c.Iterations c.Parallelism
      (Base64.EncodeToString Base64.encodeStd salt)
      (Base64.EncodeToString Base64.encodeStd
        (F (Utf8.bytes password) salt c.Iterations c.Memory c.Parallelism c.KeyLength))) =
      .ok ({ memory := c.Memory, iterations := c.Iterations, parallelism := c.Parallelism,
             keyLength := c.KeyLength }, salt,
        F (Utf8.bytes password) salt c.Iterations c.Memory c.Parallelism c.KeyLength) := by
    rw [decodeHash_ok_iff]
    exact ⟨[], ['v', '=', '1', '9'], _, _, _, hsplit, hversion, hparams,
      Base64.decodeString_encodeToString salt, Base64.decodeString_encodeToString _,
      by rw [hlen]; exact (Nat.mod_eq_of_lt hk).symm⟩
  simp only [Argon2Hasher.Verify, hdec, hid, Subtle.ConstantTimeCompare_self, decide_True]

theorem Verify_Hash_witness :
    ∃ s, (NewArgon2 DefaultArgon2Config).Hash Example.keyFunction Example.rand ['p', 'w'] =
        some (.ok s) ∧
      Example.hasher.Verify Example.keyFunction ['p', 'w'] s = some (true, none) :=
  Verify_Hash Example.hasher Example.keyFunction Example.rand DefaultArgon2Config ['p', 'w']
    (List.replicate 16 1) (fun _ _ _ _ _ k => List.length_replicate k 7)
    (by decide) (by decide) (by decide) (by decide) (by decide) (by decide) (by decide) rfl

end Password
end Gopkg

namespace Gopkg
namespace Fmt
open Grammar

theorem formatUint_isDecimal (n : Nat) : IsDecimal n (formatUint n) := by
  refine ⟨formatUint_isDigits n, decimalValue_formatUint n, ?_⟩
  induction n using Nat.strong_induction_on with
  | _ n ih =>
    rw [formatUint]
    by_cases h : n ≥ 10
    · rw [if_pos h]
      intro hh
      obtain ⟨c, t, hct⟩ : ∃ c t, formatUint (n / 10) = c :: t := by
        have := (formatUint_isDigits (n / 10)).1
        cases hf : formatUint (n / 10) with
        | nil => exact absurd hf this
        | cons c t => exact ⟨c, t, rfl⟩
      have h1 := ih (n / 10) (by omega)
      rw [hct] at hh h1
      simp only [List.cons_append, List.head?_cons, Option.some.injEq] at hh h1
      have h2 := h1 hh
      have h3 := decimalValue_formatUint (n / 10)
      rw [hct, h2] at h3
      simp only [decimalValue, List.foldl_cons, List.foldl_nil] at h3
      omega
    · rw [if_neg h]
      intro hh
      simp only [List.head?_cons, Option.some.injEq] at hh
      rw [hh]

end Fmt

namespace Password
open Grammar

/-- C7: a string that `Hash` returns has the form
`$argon2id$v=19$m=<Memory>,t=<Iterations>,p=<Parallelism>$<salt>$<digest>` in which the
three integers are the decimal numerals of the configured values without leading zeros
and salt and digest are strings over the standard base64 alphabet, without padding, of
the lengths that `SaltLength` and `KeyLength` bytes encode to; for the default
configuration this is `$argon2id$v=19$m=65536,t=3,p=2$` followed by 22 alphabet
characters, `$` and 43 alphabet characters. -/
theorem Hash_format (F : KeyFunction) (rand : Nat → Option (List Byte)) (c : Argon2Config)
    (password s : List Char)
    (hF : ∀ pw sl t m p k, (F pw sl t m p k).length = k)
    (hrand : ∀ n b, rand n = some b → b.length = n)
    (hHash : (NewArgon2 c).Hash F rand password = some (.ok s)) :
    ∃ ms ts ps saltStr digStr,
      s = ['$', 'a', 'r', 'g', 'o', 'n', '2', 'i', 'd', '$', 'v', '=', '1', '9', '$', 'm', '=']
          ++ ms ++ [',', 't', '='] ++ ts ++ [',', 'p', '='] ++ ps ++ ['$'] ++ saltStr ++ ['$']
          ++ digStr ∧
      IsDecimal c.Memory ms ∧ IsDecimal c.Iterations ts ∧ IsDecimal c.Parallelism ps ∧
      IsBase64Of Base64.encodeStd c.SaltLength saltStr ∧
      IsBase64Of Base64.encodeStd c.KeyLength digStr ∧
      (c = DefaultArgon2Config →
        ms = ['6', '5', '5', '3', '6'] ∧ ts = ['3'] ∧ ps = ['2'] ∧
          saltStr.length = 22 ∧ digStr.length = 43) := by
  simp only [Argon2Hasher.Hash, NewArgon2] at hHash
  cases hr : rand c.SaltLength with
  | none => simp [hr] at hHash
  | some salt =>
    simp only [hr] at hHash
    cases hid : IDKey F (Utf8.bytes password) salt c.Iterations c.Memory c.Parallelism
        c.KeyLength with
    | none => simp [hid] at hHash
    | some hash =>
      simp only [hid, Option.some.injEq, Except.ok.injEq] at hHash
      have hhash : hash.length = c.KeyLength := by
        simp only [IDKey] at hid
        split at hid
        · cases hid
        split at hid
        · cases hid
        split at hid
        · cases hid
        simp only [Option.some.injEq] at hid
        rw [← hid]
        exact hF _ _ _ _ _ _
      have hsl := hrand _ _ hr
      have es := Base64.EncodeToString_spec _ Base64.encodeChar_mem_std salt
      have eh := Base64.EncodeToString_spec _ Base64.encodeChar_mem_std hash
      rw [hsl] at es
      rw [hhash] at eh
      refine ⟨Fmt.formatUint c.Memory, Fmt.formatUint c.Iterations,
        Fmt.formatUint c.Parallelism, Base64.EncodeToString Base64.encodeStd salt,
        Base64.EncodeToString Base64.encodeStd hash, ?_, Fmt.formatUint_isDecimal _,
        Fmt.formatUint_isDecimal _, Fmt.formatUint_isDecimal _, es, eh, ?_⟩
      · rw [← hHash]
        simp [sprintfEncoded, formatInt_Version]
      · intro hc
        subst hc
        refine ⟨?_, ?_, ?_, ?_, ?_⟩
        · simp [DefaultArgon2Config, Fmt.formatUint, Fmt.digitChar]
        · simp [DefaultArgon2Config, Fmt.formatUint, Fmt.digitChar]
        · simp [DefaultArgon2Config, Fmt.formatUint, Fmt.digitChar]
        · rw [es.2]; rfl
        · rw [eh.2]; rfl

end Password
end Gopkg

namespace Gopkg
namespace Subtle

theorem or_eq_zero (a b : Nat) (h : a ||| b = 0) : a = 0 ∧ b = 0 := by
  have key : ∀ i, a.testBit i = false ∧ b.testBit i = false := by
    intro i
    have h1 : (a ||| b).testBit i = false := by rw [h]; exact Nat.zero_testBit i
    rw [Nat.testBit_or] at h1
    simpa using h1
  constructor
  · exact Nat.eq_of_testBit_eq (fun i => by rw [(key i).1, Nat.zero_testBit])
  · exact Nat.eq_of_testBit_eq (fun i => by rw [(key i).2, Nat.zero_testBit])

theorem xorOr_eq_zero : ∀ (x y : List Byte) (v : Nat), x.length = y.length →
    xorOr x y v = 0 → x = y
  | [], [], _, _, _ => rfl
  | [], _ :: _, _, hl, _ => by simp at hl
  | _ :: _, [], _, hl, _ => by simp at hl
  | a :: x, b :: y, v, hl, h => by
    simp only [xorOr] at h
    have hv : v ||| (a.val ^^^ b.val) = 0 := by
      by_contra hne
      have : ∀ (x y : List Byte) (w : Nat), w ≠ 0 → xorOr x y w ≠ 0 := by
        intro x
        induction x with
        | nil => intro y w hw; simpa [xorOr] using hw
        | cons c x ih =>
          intro y w hw
          cases y with
          | nil => simpa [xorOr] using hw
          | cons d y =>
            simp only [xorOr]
            exact ih y _ (fun h0 => hw (or_eq_zero _ _ h0).1)
      exact this x y _ hne h
    have hab : a = b := Fin.ext (Nat.xor_eq_zero.mp (or_eq_zero _ _ hv).2)
    rw [hv] at h
    rw [hab, xorOr_eq_zero x y 0 (by simpa using hl) h]

/-- The comparison returns 1 exactly for equal slices. -/
theorem ConstantTimeCompare_eq_one (x y : List Byte) : ConstantTimeCompare x y = 1 ↔ x = y := by
  constructor
  · intro h
    unfold ConstantTimeCompare at h
    by_cases hl : x.length ≠ y.length
    · rw [if_pos hl] at h; cases h
    · rw [if_neg hl] at h
      by_cases h0 : xorOr x y 0 = 0
      · exact xorOr_eq_zero x y 0 (by simpa using hl) h0
      · rw [if_neg h0] at h; cases h
  · intro h
    rw [h]
    exact ConstantTimeCompare_self y

end Subtle

namespace Password
open Grammar

/-- C5: whether and how `Verify` fails does not depend on the password: for every encoded
string and any two passwords the error outcomes are the same (a panic of the primitive
included); an encoded string that `decodeHash` rejects gives `(false, err)` with the error
of `decodeHash`, and on a decodable string a password whose digest differs from the stored one
gives `(false, nil)`. -/
theorem Verify_error_outcome (hasher : Argon2Hasher) (F : KeyFunction)
    (encoded p1 p2 : List Char) :
    (hasher.Verify F p1 encoded).map Prod.snd = (hasher.Verify F p2 encoded).map Prod.snd ∧
    (∀ err, hasher.decodeHash encoded = .error err →
      hasher.Verify F p1 encoded = some (false, some err) ∧
        hasher.Verify F p2 encoded = some (false, some err)) ∧
    (∀ params salt hash computed, hasher.decodeHash encoded = .ok (params, salt, hash) →
      IDKey F (Utf8.bytes p1) salt params.iterations params.memory params.parallelism
        params.keyLength = some computed →
      computed ≠ hash → hasher.Verify F p1 encoded = some (false, none)) := by
  refine ⟨?_, ?_, ?_⟩
  · unfold Argon2Hasher.Verify
    cases hasher.decodeHash encoded with
    | error err => rfl
    | ok r =>
      obtain ⟨params, salt, hash⟩ := r
      simp only [IDKey]
      by_cases h1 : params.iterations < 1
      · simp [h1]
      · by_cases h2 : params.parallelism < 1
        · simp [h1, h2]
        · by_cases h3 : params.keyLength < 1
          · simp [h1, h2, h3]
          · simp [h1, h2, h3]
  · intro err h
    simp [Argon2Hasher.Verify, h]
  · intro params salt hash computed h hid hne
    have : ¬ Subtle.ConstantTimeCompare hash computed = 1 := fun h1 =>
      hne ((Subtle.ConstantTimeCompare_eq_one _ _).mp h1).symm
    simp [Argon2Hasher.Verify, h, hid, this]

/-- C10, counterexample: `decodeHash` accepts a string whose parameter field says `t=0`,
and `Verify` of any password and that string panics in the primitive. -/
theorem Verify_panics_on_zero_iterations :
    Example.hasher.decodeHash "$argon2id$v=19$m=1,t=0,p=1$AAAA$AAAA".toList =
      .ok ({ memory := 1, iterations := 0, parallelism := 1, keyLength := 3 },
        [0, 0, 0], [0, 0, 0]) ∧
    ∀ (F : KeyFunction) (password : List Char),
      Example.hasher.Verify F password "$argon2id$v=19$m=1,t=0,p=1$AAAA$AAAA".toList =
        none := by
  have h : Example.hasher.decodeHash "$argon2id$v=19$m=1,t=0,p=1$AAAA$AAAA".toList =
      .ok ({ memory := 1, iterations := 0, parallelism := 1, keyLength := 3 },
        [0, 0, 0], [0, 0, 0]) := by rfl
  refine ⟨h, ?_⟩
  intro F password
  unfold Argon2Hasher.Verify
  rw [h]
  simp [IDKey]

/-- C10, amended: `Verify` returns normally exactly when `decodeHash` rejects the string,
or accepts it with decoded iterations, parallelism and key length of at least 1. -/
theorem Verify_returns_iff (hasher : Argon2Hasher) (F : KeyFunction)
    (password encoded : List Char) :
    (∃ r, hasher.Verify F password encoded = some r) ↔
      (∃ err, hasher.decodeHash encoded = .error err) ∨
        ∃ params salt hash, hasher.decodeHash encoded = .ok (params, salt, hash) ∧
          1 ≤ params.iterations ∧ 1 ≤ params.parallelism ∧ 1 ≤ params.keyLength := by
  unfold Argon2Hasher.Verify
  cases hasher.decodeHash encoded with
  | error err => simp
  | ok r =>
    obtain ⟨params, salt, hash⟩ := r
    simp only [IDKey, reduceCtorEq, exists_false, false_or, Except.ok.injEq, Prod.mk.injEq]
    by_cases h1 : params.iterations < 1
    · simp only [h1, ↓reduceIte, reduceCtorEq, exists_false, false_iff]
      rintro ⟨q, _, _, ⟨e, _, _⟩, h, _⟩
      subst e
      omega
    · by_cases h2 : params.parallelism < 1
      · simp only [h1, h2, ↓reduceIte, reduceCtorEq, exists_false, false_iff]
        rintro ⟨q, _, _, ⟨e, _, _⟩, _, h, _⟩
        subst e
        omega
      · by_cases h3 : params.keyLength < 1
        · simp only [h1, h2, h3, ↓reduceIte, reduceCtorEq, exists_false, false_iff]
          rintro ⟨q, _, _, ⟨e, _, _⟩, _, _, h⟩
          subst e
          omega
        · simp only [h1, h2, h3, ↓reduceIte, Option.some.injEq, exists_eq', true_iff]
          exact ⟨params, salt, hash, ⟨rfl, rfl, rfl⟩, by omega, by omega, by omega⟩

/-- C4, counterexample: when the primitive reports a hash that is too short, `Verify`
returns that error of the primitive, not `ErrInvalidHash`. -/
theorem BcryptVerify_keeps_primitive_error :
    (NewBcrypt 0).Verify (fun _ _ => some BcryptError.ErrHashTooShort) ['p', 'w'] ['x'] =
      (false, some (Error.bcrypt BcryptError.ErrHashTooShort)) ∧
    (NewBcrypt 0).Verify (fun _ _ => some BcryptError.ErrHashTooShort) ['p', 'w'] ['x'] ≠
      (false, some Error.ErrInvalidHash) := by
  decide

/-- C4, amended: `BcryptHasher.Verify` maps a nil result of the compare primitive to
`(true, nil)`, a hash mismatch to `(false, nil)`, and returns every other error of the
primitive unchanged next to `false`. -/
theorem BcryptVerify_outcome (hasher : BcryptHasher)
    (compare : List Byte → List Byte → Option BcryptError)
    (password hash : List Char) :
    hasher.Verify compare password hash =
      match compare (Utf8.bytes hash) (Utf8.bytes password) with
      | none => (true, none)
      | some BcryptError.ErrMismatchedHashAndPassword => (false, none)
      | some err => (false, some (Error.bcrypt err)) := by
  unfold BcryptHasher.Verify
  cases h : compare (Utf8.bytes hash) (Utf8.bytes password) with
  | none => simp
  | some err => cases err <;> simp

end Password
end Gopkg

namespace Gopkg
namespace Hex

theorem hextable_getD_mem : ∀ i : Fin 16, hextable.getD i.val '0' ∈ hextable := by decide

theorem hextable_mem (v : Fin 256) :
    hextable.getD (v.val >>> 4) '0' ∈ hextable ∧
      hextable.getD (v.val &&& 0x0f) '0' ∈ hextable := by
  have h := v.isLt
  have h1 : v.val >>> 4 < 16 := by rw [Nat.shiftRight_eq_div_pow]; omega
  have h2 : v.val &&& 0x0f = v.val % 16 := Nat.and_pow_two_sub_one_eq_mod v.val 4
  rw [h2]
  exact ⟨hextable_getD_mem ⟨_, h1⟩, hextable_getD_mem ⟨_, Nat.mod_lt _ (by decide)⟩⟩

/-- The hex encoder writes two lowercase hexadecimal digits for every byte. -/
theorem hexEncode_spec : ∀ bs : List Byte,
    (∀ c ∈ EncodeToString bs, c ∈ hextable) ∧ (EncodeToString bs).length = 2 * bs.length
  | [] => by simp [EncodeToString]
  | v :: rest => by
    have ih := hexEncode_spec rest
    have hv := hextable_mem v
    simp only [EncodeToString, List.mem_cons, forall_eq_or_imp, hv.1, hv.2, true_and,
      List.length_cons, ih.2]
    exact ⟨ih.1, by omega⟩

end Hex

namespace Token
open Grammar

theorem encodeRune_url : ∀ c ∈ Base64.encodeURL, Utf8.encodeRune c = [Base64.toByte c.toNat] := by
  decide

theorem bytes_url (s : List Char) (h : ∀ c ∈ s, c ∈ Base64.encodeURL) :
    Utf8.bytes s = s.map (fun c => Base64.toByte c.toNat) := by
  induction s with
  | nil => rfl
  | cons c s ih =>
    have h1 := encodeRune_url c (h c (List.mem_cons_self _ _))
    have h2 := ih (fun x hx => h x (List.mem_cons_of_mem _ hx))
    simp only [Utf8.bytes, List.flatMap_cons, List.map_cons] at h2 ⊢
    rw [h1, h2]
    rfl

/-- C8: for every length `n` and every `n` bytes `b` that the random source supplies,
`Generate(n)` returns without error a plaintext and a lookup hash; the plaintext is the
unpadded URL-safe base64 encoding of `b`, of exactly `ceil(4n/3)` characters, all of the
alphabet `A-Z a-z 0-9 - _`; the lookup hash is `Hash(plaintext)`, the lowercase
hexadecimal encoding of the SHA-256 digest of the bytes of the plaintext (one byte a
character). -/
theorem Generate_spec (Sum256 : List Byte → List Byte) (rand : Nat → Option (List Byte))
    (n : Nat) (b : List Byte) (hr : rand n = some b) (hlen : b.length = n) :
    ∃ plain lookup, Generate Sum256 rand n = .ok (plain, lookup) ∧
      plain = Base64.EncodeToString Base64.encodeURL b ∧
      IsBase64Of Base64.encodeURL n plain ∧
      4 * n ≤ 3 * plain.length ∧ 3 * plain.length < 4 * n + 3 ∧
      lookup = Hash Sum256 plain ∧
      lookup = Hex.EncodeToString (Sum256 (plain.map (fun c : Char => Base64.toByte c.toNat))) ∧
      (∀ c ∈ lookup, c ∈ Hex.hextable) ∧
      lookup.length = 2 * (Sum256 (plain.map (fun c : Char => Base64.toByte c.toNat))).length := by
  have he := Base64.EncodeToString_spec _ Base64.encodeChar_mem_url b
  rw [hlen] at he
  have hb := bytes_url _ he.1
  have hx := Hex.hexEncode_spec
    (Sum256 ((Base64.EncodeToString Base64.encodeURL b).map (fun c => Base64.toByte c.toNat)))
  refine ⟨Base64.EncodeToString Base64.encodeURL b,
    Hash Sum256 (Base64.EncodeToString Base64.encodeURL b), ?_, rfl, he, ?_, ?_, rfl, ?_, ?_, ?_⟩
  · simp only [Generate, hr]
  · rw [he.2]; omega
  · rw [he.2]; omega
  · simp only [Hash, hb]
  · simp only [Hash, hb]; exact hx.1
  · simp only [Hash, hb]; exact hx.2

theorem Generate_spec_witness :
    (Example.rand 4 = some [1, 1, 1, 1] ∧ ([1, 1, 1, 1] : List Byte).length = 4) ∧
    ∃ plain lookup,
      Generate Example.sum Example.rand 4 = .ok (plain, lookup) ∧
      plain = Base64.EncodeToString Base64.encodeURL [1, 1, 1, 1] ∧
      IsBase64Of Base64.encodeURL 4 plain ∧
      4 * 4 ≤ 3 * plain.length ∧ 3 * plain.length < 4 * 4 + 3 ∧
      lookup = Hash Example.sum plain ∧
      lookup = Hex.EncodeToString
        (Example.sum (plain.map (fun c : Char => Base64.toByte c.toNat))) ∧
      (∀ c ∈ lookup, c ∈ Hex.hextable) ∧
      lookup.length =
        2 * (Example.sum (plain.map (fun c : Char => Base64.toByte c.toNat))).length :=
  ⟨⟨rfl, rfl⟩, Generate_spec Example.sum Example.rand 4 [1, 1, 1, 1] rfl rfl⟩

end Token
end Gopkg

namespace Gopkg
namespace Password
open Grammar

theorem decodeHash_bad_count (hasher : Argon2Hasher) (e : List Char)
    (h : (Strings.Split '$' e).length ≠ 6) :
    hasher.decodeHash e = .error Error.ErrInvalidHash := by
  unfold Argon2Hasher.decodeHash
  split
  · rename_i heq
    rw [heq] at h
    simp at h
  · rfl

theorem decodeHash_bad_tag (hasher : Argon2Hasher) (e f0 f1 f2 f3 f4 f5 : List Char)
    (hs : Strings.Split '$' e = [f0, f1, f2, f3, f4, f5]) (h : f1 ≠ tag) :
    hasher.decodeHash e = .error Error.ErrInvalidHash := by
  simp only [tag] at h
  simp [Argon2Hasher.decodeHash, hs, h]

theorem decodeHash_bad_version (hasher : Argon2Hasher) (e f0 f2 f3 f4 f5 : List Char)
    (hs : Strings.Split '$' e = [f0, tag, f2, f3, f4, f5])
    (h : Fmt.SscanfVersion f2 = none) :
    hasher.decodeHash e = .error Error.ErrInvalidHash := by
  simp [Argon2Hasher.decodeHash, hs, tag, h]

theorem decodeHash_other_version (hasher : Argon2Hasher) (e f0 f2 f3 f4 f5 : List Char) (v : Int)
    (hs : Strings.Split '$' e = [f0, tag, f2, f3, f4, f5])
    (h : Fmt.SscanfVersion f2 = some v) (hv : v ≠ Version) :
    hasher.decodeHash e = .error Error.ErrIncompatibleVersion := by
  simp [Argon2Hasher.decodeHash, hs, tag, h, hv]

theorem decodeHash_bad_rest (hasher : Argon2Hasher) (e f0 f2 f3 f4 f5 : List Char)
    (hs : Strings.Split '$' e = [f0, tag, f2, f3, f4, f5])
    (h : Fmt.SscanfVersion f2 = some Version)
    (hbad : Fmt.SscanfParams f3 = none ∨ Base64.DecodeString Base64.encodeStd f4 = none ∨
      Base64.DecodeString Base64.encodeStd f5 = none) :
    hasher.decodeHash e = .error Error.ErrInvalidHash := by
  simp only [Argon2Hasher.decodeHash, hs, tag, h]
  simp only [ne_eq, not_true_eq_false, ↓reduceIte]
  cases hp : Fmt.SscanfParams f3 with
  | none => rfl
  | some r =>
    obtain ⟨m, t, p⟩ := r
    simp only []
    cases h4 : Base64.DecodeString Base64.encodeStd f4 with
    | none => rfl
    | some salt =>
      simp only []
      cases h5 : Base64.DecodeString Base64.encodeStd f5 with
      | none => rfl
      | some hash =>
        rcases hbad with hb | hb | hb
        · rw [hp] at hb; cases hb
        · rw [h4] at hb; cases hb
        · rw [h5] at hb; cases hb

theorem option_eq_none_of_forall {α : Type} (o : Option α) (h : ¬ ∃ a, o = some a) :
    o = none := by
  cases o with
  | none => rfl
  | some a => exact absurd ⟨a, rfl⟩ h

theorem dollar_not_mem_formatInt (n : Int) : '$' ∉ Fmt.formatInt n := by
  unfold Fmt.formatInt
  split
  · intro h
    rcases List.mem_cons.mp h with h | h
    · revert h; decide
    · exact dollar_not_mem_formatUint _ h
  · exact dollar_not_mem_formatUint _

theorem VersionField_formatInt (n : Int) (hlo : -(2 ^ 63) ≤ n) (hhi : n < 2 ^ 63) :
    VersionField n ('v' :: '=' :: Fmt.formatInt n) := by
  refine ⟨Fmt.formatInt n, [], rfl, ?_⟩
  unfold Fmt.formatInt
  by_cases hneg : n < 0
  · rw [if_pos hneg]
    refine ⟨[], ['-'], Fmt.formatUint n.natAbs, by simp, by simp, by simp,
      Fmt.formatUint_isDigits _, by simp [NoDigitAhead], ?_, hlo, hhi⟩
    rw [if_pos rfl, Fmt.decimalValue_formatUint]
    omega
  · rw [if_neg hneg]
    refine ⟨[], [], Fmt.formatUint n.natAbs, by simp, by simp, by simp,
      Fmt.formatUint_isDigits _, by simp [NoDigitAhead], ?_, hlo, hhi⟩
    rw [if_neg (by decide), Fmt.decimalValue_formatUint]
    omega

/-- C3, counterexample: a string that conforms to the encoding grammar and whose version
integer, 9223372036854775808, differs from 19 but does not fit a 64-bit `int` makes
`decodeHash` fail with `ErrInvalidHash`, and `Verify` return `(false, ErrInvalidHash)` for
every password, not `ErrIncompatibleVersion`. -/
theorem Verify_version_out_of_range :
    Conforms "$argon2id$v=9223372036854775808$m=65536,t=3,p=2$AAAA$AAAA".toList ∧
    decimalValue "9223372036854775808".toList = 2 ^ 63 ∧ ((2 : Int) ^ 63 ≠ Version) ∧
    Example.hasher.decodeHash
        "$argon2id$v=9223372036854775808$m=65536,t=3,p=2$AAAA$AAAA".toList =
      .error Error.ErrInvalidHash ∧
    (∀ (F : KeyFunction) (password : List Char),
      Example.hasher.Verify F password
          "$argon2id$v=9223372036854775808$m=65536,t=3,p=2$AAAA$AAAA".toList =
        some (false, some Error.ErrInvalidHash)) ∧
    Error.ErrInvalidHash ≠ Error.ErrIncompatibleVersion := by
  have h : Example.hasher.decodeHash
        "$argon2id$v=9223372036854775808$m=65536,t=3,p=2$AAAA$AAAA".toList =
      .error Error.ErrInvalidHash := by rfl
  refine ⟨?_, by decide, by decide, h, ?_, by decide⟩
  · exact ⟨"9223372036854775808".toList, "65536".toList, "3".toList, "2".toList,
      "AAAA".toList, "AAAA".toList, by rfl, Or.inl ⟨by decide, by decide⟩,
      ⟨by decide, by decide⟩, ⟨by decide, by decide⟩, ⟨by decide, by decide⟩,
      by decide, by decide⟩
  · intro F password
    unfold Argon2Hasher.Verify
    rw [h]

/-- C3, amended: a string of six `$`-fields whose field 1 is `argon2id` and whose field 2
is `v=<n>` for a value `n` other than 19 (the compiled `argon2.Version`) that fits a 64-bit
`int` makes `decodeHash` fail with `ErrIncompatibleVersion`, whatever the other fields
hold, and `Verify` returns `(false, ErrIncompatibleVersion)` for every password: neither
`ErrInvalidHash` nor a result without error. -/
theorem Verify_version_mismatch (hasher : Argon2Hasher) (F : KeyFunction)
    (password f0 f3 f4 f5 : List Char)
    (n : Int) (hlo : -(2 ^ 63) ≤ n) (hhi : n < 2 ^ 63) (hne : n ≠ Version)
    (h0 : '$' ∉ f0) (h3 : '$' ∉ f3) (h4 : '$' ∉ f4) (h5 : '$' ∉ f5) :
    hasher.decodeHash (joinFields f0 tag ('v' :: '=' :: Fmt.formatInt n) f3 f4 f5) =
        .error Error.ErrIncompatibleVersion ∧
      hasher.Verify F password
          (joinFields f0 tag ('v' :: '=' :: Fmt.formatInt n) f3 f4 f5) =
        some (false, some Error.ErrIncompatibleVersion) := by
  have hs : Strings.Split '$' (joinFields f0 tag ('v' :: '=' :: Fmt.formatInt n) f3 f4 f5) =
      [f0, tag, 'v' :: '=' :: Fmt.formatInt n, f3, f4, f5] := by
    rw [Strings.Split_six]
    refine ⟨rfl, h0, by decide, ?_, h3, h4, h5⟩
    intro h
    rcases List.mem_cons.mp h with h | h
    · revert h; decide
    · rcases List.mem_cons.mp h with h | h
      · revert h; decide
      · exact dollar_not_mem_formatInt n h
  have hv := (Fmt.SscanfVersion_iff _ _).mpr (VersionField_formatInt n hlo hhi)
  have hd := decodeHash_other_version hasher _ _ _ _ _ _ n hs hv hne
  exact ⟨hd, by simp [Argon2Hasher.Verify, hd]⟩

theorem Verify_version_mismatch_witness :
    (-(2 ^ 63) ≤ (16 : Int) ∧ (16 : Int) < 2 ^ 63 ∧ (16 : Int) ≠ Version) ∧
    Example.hasher.decodeHash (joinFields [] tag ('v' :: '=' :: Fmt.formatInt 16)
        "m=65536,t=3,p=2".toList "AAAA".toList "BBBB".toList) =
      .error Error.ErrIncompatibleVersion ∧
    Example.hasher.Verify Example.keyFunction "pw".toList
        (joinFields [] tag ('v' :: '=' :: Fmt.formatInt 16)
          "m=65536,t=3,p=2".toList "AAAA".toList "BBBB".toList) =
      some (false, some Error.ErrIncompatibleVersion) :=
  ⟨by decide,
    Verify_version_mismatch Example.hasher Example.keyFunction "pw".toList []
      "m=65536,t=3,p=2".toList "AAAA".toList "BBBB".toList 16 (by decide) (by decide)
      (by decide) (by decide) (by decide) (by decide) (by decide)⟩

end Password
end Gopkg

namespace Gopkg
namespace Password
open Grammar

theorem decodeHash_error_kind (hasher : Argon2Hasher) (e : List Char) (err : Error)
    (h : hasher.decodeHash e = .error err) :
    err = Error.ErrInvalidHash ∨ err = Error.ErrIncompatibleVersion := by
  unfold Argon2Hasher.decodeHash at h
  repeat' split at h
  all_goals first
    | (simp only [Except.error.injEq] at h; subst h; simp)
    | cases h

/-- C9, counterexample: `decodeHash` accepts a string whose first field is not empty,
whose version and parameter fields hold more than `v=<int>` and `m=<int>,t=<int>,p=<int>`
and whose salt and digest fields hold line breaks, a string that does not conform to the
encoding grammar. -/
theorem decodeHash_accepts_nonconforming :
    Example.hasher.decodeHash "x$argon2id$v= +19z$m=1,t=1,p=1a$AA\nAA$AAAA\r".toList =
      .ok ({ memory := 1, iterations := 1, parallelism := 1, keyLength := 3 },
        [0, 0, 0], [0, 0, 0]) ∧
    ¬ Conforms "x$argon2id$v= +19z$m=1,t=1,p=1a$AA\nAA$AAAA\r".toList := by
  refine ⟨by rfl, ?_⟩
  rintro ⟨vs, ms, ts, ps, salt, digest, h, _⟩
  simp [joinFields] at h

/-- C9, amended: `decodeHash` accepts exactly the strings of six `$`-delimited fields of
which the first is arbitrary, field 1 is `argon2id`, field 2 starts with `v=` and a
number of value 19 (blanks before it, a sign and leading zeros allowed, anything after
it), field 3 starts with `m=<uint32>,t=<uint32>,p=<uint8>` (blanks allowed before each
number, anything after the last), and fields 4 and 5 are unpadded standard base64 with
carriage returns and line feeds allowed anywhere; every other string is rejected, with
`ErrInvalidHash` or `ErrIncompatibleVersion`. -/
theorem decodeHash_accepts_iff (hasher : Argon2Hasher) (e : List Char) :
    (∀ params salt hash, hasher.decodeHash e = .ok (params, salt, hash) →
      Accepted params.memory params.iterations params.parallelism e) ∧
    (∀ m t p, Accepted m t p e → ∃ salt hash,
      hasher.decodeHash e = .ok (⟨m, t, p, hash.length % 2 ^ 32⟩, salt, hash)) ∧
    (∀ err, hasher.decodeHash e = .error err →
      (¬ ∃ m t p, Accepted m t p e) ∧
        (err = Error.ErrInvalidHash ∨ err = Error.ErrIncompatibleVersion)) := by
  have hfwd : ∀ params salt hash, hasher.decodeHash e = .ok (params, salt, hash) →
      Accepted params.memory params.iterations params.parallelism e := by
    intro params salt hash h
    obtain ⟨f0, f2, f3, f4, f5, hs, hv, hp, h4, h5, _⟩ := (decodeHash_ok_iff _ _ _ _ _).mp h
    obtain ⟨he, h0, _, hd2, hd3, hd4, hd5⟩ := (Strings.Split_six _ _ _ _ _ _ _).mp hs
    exact ⟨f0, f2, f3, f4, f5, he, h0, hd2, hd3, hd4, hd5,
      (Fmt.SscanfVersion_iff _ _).mp hv, (Fmt.SscanfParams_iff _ _ _ _).mp hp,
      (Base64.DecodeString_isSome _).mp ⟨_, h4⟩, (Base64.DecodeString_isSome _).mp ⟨_, h5⟩⟩
  have hbwd : ∀ m t p, Accepted m t p e → ∃ salt hash,
      hasher.decodeHash e = .ok (⟨m, t, p, hash.length % 2 ^ 32⟩, salt, hash) := by
    rintro m t p ⟨f0, f2, f3, f4, f5, he, h0, hd2, hd3, hd4, hd5, hv, hp, h4, h5⟩
    obtain ⟨salt, hsalt⟩ := (Base64.DecodeString_isSome _).mpr h4
    obtain ⟨hash, hhash⟩ := (Base64.DecodeString_isSome _).mpr h5
    refine ⟨salt, hash, (decodeHash_ok_iff _ _ _ _ _).mpr ⟨f0, f2, f3, f4, f5, ?_,
      (Fmt.SscanfVersion_iff _ _).mpr hv, (Fmt.SscanfParams_iff _ _ _ _).mpr hp, hsalt, hhash,
      rfl⟩⟩
    exact (Strings.Split_six _ _ _ _ _ _ _).mpr ⟨he, h0, by decide, hd2, hd3, hd4, hd5⟩
  refine ⟨hfwd, hbwd, ?_⟩
  intro err h
  refine ⟨?_, decodeHash_error_kind hasher e err h⟩
  rintro ⟨m, t, p, hacc⟩
  obtain ⟨salt, hash, hok⟩ := hbwd m t p hacc
  rw [hok] at h
  cases h

theorem decodeHash_accepts_iff_witness :
    Accepted 1 1 1 "x$argon2id$v= +19z$m=1,t=1,p=1a$AA\nAA$AAAA\r".toList :=
  (decodeHash_accepts_iff Example.hasher
      "x$argon2id$v= +19z$m=1,t=1,p=1a$AA\nAA$AAAA\r".toList).1
    { memory := 1, iterations := 1, parallelism := 1, keyLength := 3 } [0, 0, 0] [0, 0, 0]
    (by rfl)

end Password
end Gopkg

namespace Gopkg
namespace Password
open Grammar

/-- C2, counterexample: a string whose field 4 is not base64 is rejected with
`ErrIncompatibleVersion`, not `ErrInvalidHash`, when its version field says 18; and
strings with characters after the last parameter, or with a line feed inside the digest
field, are not rejected at all. -/
theorem decodeHash_not_always_InvalidHash :
    (Base64.DecodeString Base64.encodeStd "!!!".toList = none ∧
      Example.hasher.decodeHash "$argon2id$v=18$m=1,t=1,p=1$!!!$AAAA".toList =
        .error Error.ErrIncompatibleVersion ∧
      Error.ErrIncompatibleVersion ≠ Error.ErrInvalidHash) ∧
    Example.hasher.decodeHash "$argon2id$v=19$m=1,t=1,p=1x$AAAA$AAAA".toList =
      .ok ({ memory := 1, iterations := 1, parallelism := 1, keyLength := 3 },
        [0, 0, 0], [0, 0, 0]) ∧
    ('\n' ∉ Base64.encodeStd ∧
      Example.hasher.decodeHash "$argon2id$v=19$m=1,t=1,p=1$AAAA$AA\nAA".toList =
        .ok ({ memory := 1, iterations := 1, parallelism := 1, keyLength := 3 },
          [0, 0, 0], [0, 0, 0])) := by
  refine ⟨⟨by rfl, by rfl, by decide⟩, by rfl, by decide, by rfl⟩

/-- C2, amended: `decodeHash` fails with `ErrInvalidHash` when the string does not split
into six fields, when field 1 is not `argon2id`, and when field 2 does not start with
`v=` and a 64-bit number (blanks before it and a sign allowed); when field 2 carries the
version 19 it fails with `ErrInvalidHash` whenever field 3 does not start with
`m=<uint32>,t=<uint32>,p=<uint8>` (blanks allowed before each number) or field 4 or 5
holds a character outside the standard alphabet other than carriage return and line feed,
or a number of alphabet characters that is 1 modulo 4; when field 2 carries another
version it fails with `ErrIncompatibleVersion` whatever fields 3 to 5 hold. -/
theorem decodeHash_rejects (hasher : Argon2Hasher) (e f0 f1 f2 f3 f4 f5 : List Char) :
    ((Strings.Split '$' e).length ≠ 6 → hasher.decodeHash e = .error Error.ErrInvalidHash) ∧
    (Strings.Split '$' e = [f0, f1, f2, f3, f4, f5] →
      ((f1 ≠ tag ∨ ¬ ∃ v, VersionField v f2) →
        hasher.decodeHash e = .error Error.ErrInvalidHash) ∧
      (f1 = tag → VersionField Version f2 →
        ((¬ ∃ m t p, ParamsField m t p f3) ∨ ¬ Base64Field f4 ∨ ¬ Base64Field f5) →
        hasher.decodeHash e = .error Error.ErrInvalidHash) ∧
      (f1 = tag → ∀ v, VersionField v f2 → v ≠ Version →
        hasher.decodeHash e = .error Error.ErrIncompatibleVersion)) := by
  refine ⟨decodeHash_bad_count hasher e, fun hs => ⟨?_, ?_, ?_⟩⟩
  · intro h
    by_cases h1 : f1 = tag
    · subst h1
      rcases h with h | h
      · exact absurd rfl h
      · refine decodeHash_bad_version hasher e f0 f2 f3 f4 f5 hs (option_eq_none_of_forall _ ?_)
        rintro ⟨v, hv⟩
        exact h ⟨v, (Fmt.SscanfVersion_iff _ _).mp hv⟩
    · exact decodeHash_bad_tag hasher e f0 f1 f2 f3 f4 f5 hs h1
  · intro h1 hv hbad
    subst h1
    refine decodeHash_bad_rest hasher e f0 f2 f3 f4 f5 hs ((Fmt.SscanfVersion_iff _ _).mpr hv) ?_
    rcases hbad with hb | hb | hb
    · refine Or.inl (option_eq_none_of_forall _ ?_)
      rintro ⟨⟨m, t, p⟩, hp⟩
      exact hb ⟨m, t, p, (Fmt.SscanfParams_iff _ _ _ _).mp hp⟩
    · refine Or.inr (Or.inl (option_eq_none_of_forall _ ?_))
      intro hex
      exact hb ((Base64.DecodeString_isSome _).mp hex)
    · refine Or.inr (Or.inr (option_eq_none_of_forall _ ?_))
      intro hex
      exact hb ((Base64.DecodeString_isSome _).mp hex)
  · intro h1 v hv hne
    subst h1
    exact decodeHash_other_version hasher e f0 f2 f3 f4 f5 v hs
      ((Fmt.SscanfVersion_iff _ _).mpr hv) hne

theorem decodeHash_rejects_witness :
    Example.hasher.decodeHash "$argon2id$v=19$m=1,t=1,p=1$AAAA".toList =
      .error Error.ErrInvalidHash ∧
    Example.hasher.decodeHash "$argon2i$v=19$m=1,t=1,p=1$AAAA$AAAA".toList =
      .error Error.ErrInvalidHash ∧
    Example.hasher.decodeHash "$argon2id$v=19$m=1,t=1,p=1$AAAA$AAAAA".toList =
      .error Error.ErrInvalidHash :=
  ⟨(decodeHash_rejects Example.hasher "$argon2id$v=19$m=1,t=1,p=1$AAAA".toList
      [] [] [] [] [] []).1 (by decide),
    ((decodeHash_rejects Example.hasher "$argon2i$v=19$m=1,t=1,p=1$AAAA$AAAA".toList
      [] "argon2i".toList "v=19".toList "m=1,t=1,p=1".toList "AAAA".toList
      "AAAA".toList).2 (by rfl)).1 (Or.inl (by decide)),
    ((decodeHash_rejects Example.hasher "$argon2id$v=19$m=1,t=1,p=1$AAAA$AAAAA".toList
      [] tag "v=19".toList "m=1,t=1,p=1".toList "AAAA".toList
      "AAAAA".toList).2 (by rfl)).2.1 rfl
      ((Fmt.SscanfVersion_iff _ _).mp (by rfl))
      (Or.inr (Or.inr (fun h => by simp [Base64Field] at h; revert h; decide)))⟩

theorem Verify_error_outcome_witness :
    Example.hasher.Verify Example.keyFunction "pw".toList "no hash".toList =
        some (false, some Error.ErrInvalidHash) ∧
      Example.hasher.Verify Example.keyFunction "pw".toList
        "$argon2id$v=19$m=1,t=1,p=1$AAAA$AAAA".toList = some (false, none) :=
  ⟨((Verify_error_outcome Example.hasher Example.keyFunction "no hash".toList
      "pw".toList "pw2".toList).2.1 Error.ErrInvalidHash (by rfl)).1,
    (Verify_error_outcome Example.hasher Example.keyFunction
      "$argon2id$v=19$m=1,t=1,p=1$AAAA$AAAA".toList "pw".toList "pw2".toList).2.2
      { memory := 1, iterations := 1, parallelism := 1, keyLength := 3 } [0, 0, 0] [0, 0, 0]
      [7, 7, 7] (by rfl) (by rfl) (by decide)⟩

theorem Hash_format_witness :
    ∃ ms ts ps saltStr digStr,
      sprintfEncoded Version 65536 3 2
        (Base64.EncodeToString Base64.encodeStd (List.replicate 16 1))
        (Base64.EncodeToString Base64.encodeStd (List.replicate 32 7)) =
        ['$', 'a', 'r', 'g', 'o', 'n', '2', 'i', 'd', '$', 'v', '=', '1', '9', '$', 'm', '=']
          ++ ms ++ [',', 't', '='] ++ ts ++ [',', 'p', '='] ++ ps ++ ['$'] ++ saltStr ++ ['$']
          ++ digStr ∧
      IsDecimal DefaultArgon2Config.Memory ms ∧ IsDecimal DefaultArgon2Config.Iterations ts ∧
      IsDecimal DefaultArgon2Config.Parallelism ps ∧
      IsBase64Of Base64.encodeStd DefaultArgon2Config.SaltLength saltStr ∧
      IsBase64Of Base64.encodeStd DefaultArgon2Config.KeyLength digStr ∧
      (DefaultArgon2Config = DefaultArgon2Config →
        ms = ['6', '5', '5', '3', '6'] ∧ ts = ['3'] ∧ ps = ['2'] ∧
          saltStr.length = 22 ∧ digStr.length = 43) :=
  Hash_format Example.keyFunction Example.rand DefaultArgon2Config "pw".toList _
    (fun _ _ _ _ _ k => List.length_replicate k 7)
    (fun n b h => by
      simp only [Example.rand, Option.some.injEq] at h
      rw [← h]
      exact List.length_replicate n 1)
    (by rfl)

end Password
end Gopkg
